import Mathlib

/-!
Verification of the hierarchical rollup and time-series consolidation engine of
`src/package_downloads/stats_from_anaconda_org.py`.

Modelling conventions (shallow embedding):

* A date string `"YYYY-MM-DD"` (format `DATE_FORMAT = "%Y-%m-%d"`, `common.py`) is
  represented by its parsed value: the proleptic Gregorian day ordinal
  (`datetime.strptime(...).toordinal()`), an `Int`.  `parse_date` is injective and
  strictly order-preserving on such strings, and all date comparisons and the
  `timedelta(days=n)` subtraction in the source act on parsed dates, so sorting or
  comparing by `parse_date date` is sorting or comparing the `Int` directly.
  Concrete ordinals used below: 2024-01-01 ↦ 738886, …, 2024-01-04 ↦ 738889;
  the virtual upper dedup sentinel "9999-12-31" ↦ 3652059 (= `datetime.max`'s
  ordinal); the lower sentinel "0000-01-01" has no parseable ordinal and only its
  total (-1) is ever read, so it needs no date value.
* A Python `dict` / `OrderedDict` is an insertion-ordered association list
  `List (κ × β)`; its keys are unique (hypotheses state this where a proof needs it).
  `d[k] = v` replaces the value in place if `k` is present and appends otherwise
  (`dictUpdate`); `d[k]` is `pyGet`.  Reads of keys that Python guarantees present
  (and whose absence would raise `KeyError`) are modelled with `Option.getD 0`;
  theorems carry the presence hypotheses that make this faithful.
* Python `sorted` is a stable ascending sort by the given key: `List.insertionSort`
  with the non-strict key relation (stable in the same sense).
* `sys.maxsize` is the literal 9223372036854775807.
-/

namespace PackageDownloads

/- Throughout, a date is its parsed day ordinal (an `Int`, see header), a total is
a Python int (an `Int`), and a child key at some hierarchy level (version, subdir,
basename, ...) is a `String`. -/

/-- Python `sys.maxsize` on a 64-bit platform. -/
def maxsize : Int := 9223372036854775807

/-- Day ordinal of `"9999-12-31"`, the date of the virtual upper dedup sentinel. -/
def sentinelDate : Int := 3652059

/-- Python `d[k]` on an association-list dict: first entry with the key wins. -/
def pyGet {κ β : Type} [DecidableEq κ] : List (κ × β) → κ → Option β
  | [], _ => none
  | (k, v) :: rest, a => if k = a then some v else pyGet rest a

/-- Python `d[k] = v`: replace the value in place if present, else append. -/
def dictUpdate {κ β : Type} [DecidableEq κ] : List (κ × β) → κ → β → List (κ × β)
  | [], a, b => [(a, b)]
  | (k, v) :: rest, a, b => if k = a then (a, b) :: rest else (k, v) :: dictUpdate rest a b

/-- Python list slice `l[-k:]` for a nonnegative bound `k`
(`l[-0:]` is the whole list). -/
def pyTakeLast {α : Type} (k : Nat) (l : List α) : List α :=
  if k = 0 then l else l.drop (l.length - k)

/-- The sort key of `sort_by_date`: ascending by `(parse_date(date), total)`. -/
def pairLe (a b : Int × Int) : Prop :=
  a.1 < b.1 ∨ (a.1 = b.1 ∧ a.2 ≤ b.2)

instance : DecidableRel pairLe := fun a b => by
  unfold pairLe; infer_instance

instance : IsTotal (Int × Int) pairLe :=
  ⟨by intro ⟨a1, a2⟩ ⟨b1, b2⟩; simp only [pairLe]; omega⟩

instance : IsTrans (Int × Int) pairLe :=
  ⟨by intro ⟨a1, a2⟩ ⟨b1, b2⟩ ⟨c1, c2⟩; simp only [pairLe]; omega⟩

instance : IsAntisymm (Int × Int) pairLe :=
  ⟨by
    intro a b h1 h2
    obtain ⟨a1, a2⟩ := a
    obtain ⟨b1, b2⟩ := b
    simp only [pairLe] at h1 h2
    simp only [Prod.mk.injEq]
    omega⟩

/-- `sort_by_date` (source lines 90-94): stable ascending sort of the items of a
date-keyed dict by `(parse_date(date), total)`. -/
def sort_by_date (counts_per_date : List (Int × Int)) : List (Int × Int) :=
  List.insertionSort pairLe counts_per_date

/-- The scan inside `dedup_counts_per_date` (source lines 101-111): walk the sorted
items zipped with their original neighbours, the previous total starting at the
lower sentinel's `-1` and the successor of the last point being the upper sentinel
`("9999-12-31", sys.maxsize)`.  A point is skipped when its total equals both
original neighbours' totals, or when its date equals its original successor's. -/
def dedupScan : Int → List (Int × Int) → List (Int × Int)
  | _, [] => []
  | prevT, c :: rest =>
    let nxt := rest.headD (sentinelDate, maxsize)
    if prevT = c.2 ∧ c.2 = nxt.2 then dedupScan c.2 rest
    else if c.1 = nxt.1 then dedupScan c.2 rest
    else c :: dedupScan c.2 rest

/-- `dedup_counts_per_date` (source lines 97-112). -/
def dedup_counts_per_date (counts_per_date : List (Int × Int)) : List (Int × Int) :=
  dedupScan (-1) (sort_by_date counts_per_date)

/-- The merge step of `update_basename_counts` (source lines 142-143): fold one new
`(date, total)` observation into a series and consolidate it. -/
def consolidate_observation (counts_per_date : List (Int × Int)) (date : Int)
    (total : Int) : List (Int × Int) :=
  dedup_counts_per_date (dictUpdate counts_per_date date total)

/-- Generalisation of `dedupScan` used in proofs: the virtual successor of the
last point is the given `aft` instead of the upper sentinel
(`dedupScan p l = dedupScanA p l ("9999-12-31", sys.maxsize)`). -/
def dedupScanA : Int → List (Int × Int) → (Int × Int) → List (Int × Int)
  | _, [], _ => []
  | prevT, c :: rest, aft =>
    let nxt := rest.headD aft
    if prevT = c.2 ∧ c.2 = nxt.2 then dedupScanA c.2 rest aft
    else if c.1 = nxt.1 then dedupScanA c.2 rest aft
    else c :: dedupScanA c.2 rest aft

/-- The total the dedup scan carries after passing a list of points: the last
point's total, or the initial carry for an empty list. -/
def lastTotal (p : Int) (l : List (Int × Int)) : Int :=
  l.foldl (fun _ c => c.2) p

/-- Sort key of the inner sort of `sort_by_date_and_counts` and of the current
breakdown in `update_counts`: ascending by total only (Python sorts stably, so
ties keep the dict's insertion order). -/
def valLe {α : Type} (a b : α × Int) : Prop := a.2 ≤ b.2

instance {α : Type} : DecidableRel (valLe (α := α)) := fun a b => by
  unfold valLe; infer_instance

instance {α : Type} : IsTotal (α × Int) valLe :=
  ⟨by intro ⟨a1, a2⟩ ⟨b1, b2⟩; simp only [valLe]; omega⟩

instance {α : Type} : IsTrans (α × Int) valLe :=
  ⟨by intro ⟨a1, a2⟩ ⟨b1, b2⟩ ⟨c1, c2⟩; simp only [valLe]; omega⟩

/-- Sort key of the outer sort of `sort_by_date_and_counts`: ascending by
`parse_date(date)` (dates are unique dict keys, so this is a total strict order
in use). -/
def dateLe {α : Type} (a b : Int × α) : Prop := a.1 ≤ b.1

instance {α : Type} : DecidableRel (dateLe (α := α)) := fun a b => by
  unfold dateLe; infer_instance

instance {α : Type} : IsTotal (Int × α) dateLe :=
  ⟨by intro ⟨a1, a2⟩ ⟨b1, b2⟩; simp only [dateLe]; omega⟩

instance {α : Type} : IsTrans (Int × α) dateLe :=
  ⟨by intro ⟨a1, a2⟩ ⟨b1, b2⟩ ⟨c1, c2⟩; simp only [dateLe]; omega⟩

/-- `sort_by_date_and_counts` (source lines 158-177): sort each date's child dict
ascending by total (stable), then sort the dates ascending by `parse_date`. -/
def sort_by_date_and_counts (counts_per_date : List (Int × List (String × Int))) :
    List (Int × List (String × Int)) :=
  List.insertionSort dateLe
    (counts_per_date.map (fun p => (p.1, List.insertionSort valLe p.2)))

/-- One write `counts_per_date[date][sub_key] = total` into the
`defaultdict(dict)` of `get_sub_counts_per_date` / `get_recent_counts`. -/
def dictUpdate2 (acc : List (Int × List (String × Int))) (date : Int) (key : String)
    (total : Int) : List (Int × List (String × Int)) :=
  match pyGet acc date with
  | some inner => dictUpdate acc date (dictUpdate inner key total)
  | none => acc ++ [(date, [(key, total)])]

/-- `get_sub_counts_per_date` (source lines 180-187): transpose the children's
series into a per-date dict of child totals, then order it. -/
def get_sub_counts_per_date (all_sub_counts_per_date : List (String × List (Int × Int))) :
    List (Int × List (String × Int)) :=
  sort_by_date_and_counts
    (all_sub_counts_per_date.foldl
      (fun acc kv => kv.2.foldl (fun acc2 dt => dictUpdate2 acc2 dt.1 kv.1 dt.2) acc) [])

/-! ## Backward summation (`get_summed_up_counts_per_date`) -/

/-- `sum(tmp.values())` over an association-list dict. -/
def sumValues (l : List (String × Int)) : Int :=
  (l.map Prod.snd).sum

/-- The inner loop of `get_summed_up_counts_per_date` (source lines 232-234) over one
date's child dict: for each `(key, total)` do
`summed_up_total -= tmp[key] - total; tmp[key] = total`.  Python raises `KeyError`
when `key` is missing from `tmp`; that read is modelled as `getD 0` and excluded by
hypotheses where a theorem needs it. -/
def sumUpdateStep : List (String × Int) → Int → List (String × Int) →
    List (String × Int) × Int
  | tmp, s, [] => (tmp, s)
  | tmp, s, (k, t) :: rest =>
    sumUpdateStep (dictUpdate tmp k t) (s - ((pyGet tmp k).getD 0 - t)) rest

/-- The outer loop of `get_summed_up_counts_per_date` (source lines 231-235), walking
the (already reversed) date entries and emitting `(date, summed_up_total)` after each
date's adjustments. -/
def sumWalk : List (String × Int) → Int → List (Int × List (String × Int)) →
    List (Int × Int)
  | _, _, [] => []
  | tmp, s, (date, counts) :: rest =>
    let ts := sumUpdateStep tmp s counts
    (date, ts.2) :: sumWalk ts.1 ts.2 rest

/-- `get_summed_up_counts_per_date` (source lines 224-236): anchor `tmp` at the
session date's child totals, walk the dates in reverse applying each child's deltas,
then dedup the emitted per-date sums. -/
def get_summed_up_counts_per_date (session_date : Int)
    (ordered_counts_per_date : List (Int × List (String × Int))) : List (Int × Int) :=
  let tmp := (pyGet ordered_counts_per_date session_date).getD []
  dedup_counts_per_date (sumWalk tmp (sumValues tmp) ordered_counts_per_date.reverse)

/-! ## Recent counts (`get_recent_counts`) -/

/-- The mutable state of the scan in `get_recent_counts` (source lines 196-209):
`rcpd` is `recent_counts_per_date` (a `defaultdict(dict)`), `rtc` is
`recent_total_counts`, `prev` is `prev_totals` (a `defaultdict(int)`). -/
structure RecentState where
  rcpd : List (Int × List (String × Int))
  rtc : List (String × Int)
  prev : List (String × Int)
deriving DecidableEq

/-- One `(key, total)` step of the scan (source lines 204-209): on
`total > prev_totals[key]`, record the first-event recent total
`total_counts[key] - total` if absent, record the event point, and raise the
watermark. -/
def recentInner (total_counts : List (String × Int)) (date : Int) (st : RecentState)
    (kt : String × Int) : RecentState :=
  if kt.2 > (pyGet st.prev kt.1).getD 0 then
    { rcpd := dictUpdate2 st.rcpd date kt.1 kt.2
      rtc :=
        if (pyGet st.rtc kt.1).isSome then st.rtc
        else st.rtc ++ [(kt.1, (pyGet total_counts kt.1).getD 0 - kt.2)]
      prev := dictUpdate st.prev kt.1 kt.2 }
  else st

/-- One date entry of the scan (source lines 201-209): entries dated before
`min_date` are skipped wholesale. -/
def recentStep (min_date : Int) (total_counts : List (String × Int)) (st : RecentState)
    (entry : Int × List (String × Int)) : RecentState :=
  if entry.1 < min_date then st
  else entry.2.foldl (recentInner total_counts entry.1) st

/-- The full scan of `get_recent_counts` (source lines 196-209);
`min_date = parse_date(session_date) - timedelta(days=max_days)` and
`total_counts = counts_per_date[session_date]`. -/
def recentScan (session_date : Int) (max_days : Int)
    (counts_per_date : List (Int × List (String × Int))) : RecentState :=
  counts_per_date.foldl
    (recentStep (session_date - max_days) ((pyGet counts_per_date session_date).getD []))
    ⟨[], [], []⟩

/-- `recent_selection` (source lines 210-212): the keys of `recent_total_counts`
sorted ascending by their recent totals (stable, so ties keep insertion order),
keeping the last `max_sub_level_entries`. -/
def recentSelection (max_sub_level_entries : Nat) (rtc : List (String × Int)) :
    List String :=
  pyTakeLast max_sub_level_entries ((List.insertionSort valLe rtc).map Prod.fst)

/-- `get_recent_counts` (source lines 190-221). -/
def get_recent_counts (session_date : Int) (max_sub_level_entries : Nat) (max_days : Int)
    (counts_per_date : List (Int × List (String × Int))) :
    List (Int × List (String × Int)) :=
  let st := recentScan session_date max_days counts_per_date
  let sel := recentSelection max_sub_level_entries st.rtc
  sort_by_date_and_counts
    (st.rcpd.filterMap (fun de =>
      let counts_at_date := de.2.filter (fun kt => kt.1 ∈ sel)
      if counts_at_date.isEmpty then none else some (de.1, counts_at_date)))

/-! ## Current breakdown (`update_counts`, lines 255-260) -/

/-- `downloads_per_sub_level` of `update_counts` (source lines 255-260): the session
date's child totals sorted ascending by total only (stable), keeping the last
`max_sub_level_entries` entries. -/
def downloads_per_sub_level (max_sub_level_entries : Nat)
    (session_counts : List (String × Int)) : List (String × Int) :=
  pyTakeLast max_sub_level_entries (List.insertionSort valLe session_counts)

/-! ## Persistence (`as_list`, `from_list_of_dicts`, `load_old_counts`,
`save_json`, `update_basename_counts`) -/

/-- A Python JSON scalar appearing in a persisted `{date, total}` entry: the date
string (kept as its ordinal, see header) or the total int. -/
inductive PyVal where
  | vDate (d : Int)
  | vInt (n : Int)
deriving DecidableEq

/-- `as_list` (source lines 115-123) at the instantiation
`as_list(counts_per_date, "date", "total")`: each `(date, total)` item becomes the
object `{key_str: date, value_str: total}`, modelled as a field association list.
`save_json` dumps objects with `sort_keys=True`, which leaves these two-field
objects as built since `"date" < "total"` alphabetically. -/
def as_list (input_dict : List (Int × Int)) (key_str value_str : String) :
    List (List (String × PyVal)) :=
  input_dict.map (fun kv => [(key_str, PyVal.vDate kv.1), (value_str, PyVal.vInt kv.2)])

/-- `from_list_of_dicts` (source lines 71-74) at the same instantiation: rebuild
`{entry[key_str]: entry[value_str]}`.  Python's dict comprehension keeps the first
position and last value on duplicate keys; series dates are unique, and the
accesses `entry[key_str]` / `entry[value_str]` are total on records produced by
`as_list` (missing fields or wrong scalar kinds are modelled by defaults). -/
def from_list_of_dicts (input_list : List (List (String × PyVal)))
    (key_str value_str : String) : List (Int × Int) :=
  input_list.foldl
    (fun acc entry =>
      let d := match pyGet entry key_str with
        | some (PyVal.vDate d) => d
        | _ => 0
      let t := match pyGet entry value_str with
        | some (PyVal.vInt n) => n
        | _ => 0
      dictUpdate acc d t) []

/-- The `TimeSeriesStore`: maps a hierarchical key (path tuple) to the persisted
`downloads_per_date` list of its JSON record, `none` when no file exists. -/
def Store := List String → Option (List (List (String × PyVal)))

/-- `load_old_counts` (source lines 77-83): read the stored record's
`downloads_per_date` list back into a date-keyed dict, or `{}` if absent. -/
def load_old_counts (store : Store) (path_tuple : List String) : List (Int × Int) :=
  match store path_tuple with
  | some input_list => from_list_of_dicts input_list "date" "total"
  | none => []

/-- `save_json` (source lines 126-132), restricted to the `downloads_per_date`
payload of the record (the topology fields and text encoding are external I/O). -/
def save_json (store : Store) (path_tuple : List String)
    (downloads_per_date : List (List (String × PyVal))) : Store :=
  fun key => if key = path_tuple then some downloads_per_date else store key

/-- The loop of `update_basename_counts` (source lines 140-145): for one snapshot
entry, load the stored series, fold in the `(current_date, total)` observation,
consolidate, persist, and collect the consolidated series. -/
def update_basename_counts_loop (current_date : Int) :
    List (List String × Int) → Store × List (List String × List (Int × Int)) →
    Store × List (List String × List (Int × Int))
  | [], acc => acc
  | kv :: rest, acc =>
    let counts_per_date :=
      dedup_counts_per_date (dictUpdate (load_old_counts acc.1 kv.1) current_date kv.2)
    update_basename_counts_loop current_date rest
      (save_json acc.1 kv.1 (as_list counts_per_date "date" "total"),
        acc.2 ++ [(kv.1, counts_per_date)])

/-- `update_basename_counts` (source lines 135-146): iterate the loop over exactly
the leaf keys present in the snapshot.  Keys not in the snapshot are never
touched. -/
def update_basename_counts (current_date : Int)
    (current_basename_totals : List (List String × Int)) (store : Store) :
    Store × List (List String × List (Int × Int)) :=
  update_basename_counts_loop current_date current_basename_totals (store, [])

/-! ## Spec-side formulations (translated from the specification's words, for
refinement comparisons against the code definitions above) -/

/-- The dedup rule as the spec states it, for the non-endpoint points: given the
previous point's total, drop an interior point exactly when its total equals both
its original neighbours' totals (`prev.total == curr.total == next.total`); the
last real point is always retained. -/
def specDedupTail : Int → List (Int × Int) → List (Int × Int)
  | _, [] => []
  | _, [c] => [c]
  | prevT, c :: nxt :: rest =>
    if prevT = c.2 ∧ c.2 = nxt.2 then specDedupTail c.2 (nxt :: rest)
    else c :: specDedupTail c.2 (nxt :: rest)

/-- The spec's dedup pass over the date-sorted series: the first and last real
points are retained, and an interior point is dropped exactly when its total
equals both its original neighbours' totals. -/
def specDedup : List (Int × Int) → List (Int × Int)
  | [] => []
  | c :: rest => c :: specDedupTail c.2 rest

/-- Lexicographic comparison of key strings by character code (the standard string
order used for a deterministic tie-break). -/
def keyLeb : List Char → List Char → Bool
  | [], _ => true
  | _ :: _, [] => false
  | a :: as, b :: bs =>
    if a.toNat < b.toNat then true
    else if a.toNat = b.toNat then keyLeb as bs
    else false

/-- The spec's sort key for the current breakdown: ascending by the pair
`(total, key)`, the key comparison giving a deterministic tie-break. -/
def specTotalKeyLe (a b : String × Int) : Prop :=
  a.2 < b.2 ∨ (a.2 = b.2 ∧ keyLeb a.1.data b.1.data = true)

instance : DecidableRel specTotalKeyLe := fun a b => by
  unfold specTotalKeyLe; infer_instance

/-- The spec's current breakdown: children's as-of totals sorted ascending by
`(total, key)`, keeping the last `max_sub_level_entries` entries. -/
def specTopK (max_sub_level_entries : Nat) (session_counts : List (String × Int)) :
    List (String × Int) :=
  pyTakeLast max_sub_level_entries (List.insertionSort specTotalKeyLe session_counts)

/-! ## Reference quantities used to state theorems about the code -/

/-- The value the backward walk of `get_summed_up_counts_per_date` carries for one
child: the child's total at its first entry in the given (ascending-date) suffix of
the per-date dicts, defaulting to `dflt` (its session total) when absent. -/
def backValue (k : String) (dflt : Int) : List (Int × List (String × Int)) → Int
  | [] => dflt
  | e :: rest =>
    match pyGet e.2 k with
    | some t => t
    | none => backValue k dflt rest

/-- The per-child session dict re-read through `backValue` at a given suffix: what
`tmp` holds after the backward walk has processed exactly that suffix. -/
def backTmp (entries : List (Int × List (String × Int))) (tmp0 : List (String × Int)) :
    List (String × Int) :=
  tmp0.map (fun kv => (kv.1, backValue kv.1 kv.2 entries))

/-- The watermark of `get_recent_counts` for child `k` over a prefix of the date
entries, seeded with `a`: the running maximum of `k`'s totals at entries inside
the window. -/
def winMaxFrom (min_date : Int) (k : String) (a : Int)
    (entries : List (Int × List (String × Int))) : Int :=
  entries.foldl
    (fun acc e =>
      if e.1 < min_date then acc
      else match pyGet e.2 k with
        | some t => max acc t
        | none => acc) a

/-- The watermark of `get_recent_counts` for child `k` over a prefix of the date
entries: the running maximum, initialised to 0 (`defaultdict(int)`), of `k`'s totals
at entries inside the window. -/
def winMax (min_date : Int) (k : String) (entries : List (Int × List (String × Int))) :
    Int :=
  winMaxFrom min_date k 0 entries

/-- Child `k`'s first watermark-event total within the window: the total of `k`'s
first in-window entry whose total strictly exceeds the zero-initialised watermark,
i.e. its first positive in-window total. -/
def firstEventTotal (min_date : Int) (k : String) :
    List (Int × List (String × Int)) → Option Int
  | [] => none
  | e :: rest =>
    if e.1 < min_date then firstEventTotal min_date k rest
    else match pyGet e.2 k with
      | some t => if 0 < t then some t else firstEventTotal min_date k rest
      | none => firstEventTotal min_date k rest

/-- Lookup in a nested per-date/per-key dict. -/
def pyGet2 (l : List (Int × List (String × Int))) (d : Int) (k : String) : Option Int :=
  match pyGet l d with
  | some inner => pyGet inner k
  | none => none

/-! ## Association-list lemmas -/

theorem pyGet_eq_none {κ β : Type} [DecidableEq κ] (l : List (κ × β)) (a : κ) :
    pyGet l a = none ↔ a ∉ l.map Prod.fst := by
  induction l with
  | nil => simp [pyGet]
  | cons kv rest ih =>
    obtain ⟨k, v⟩ := kv
    by_cases hk : k = a
    · subst hk
      simp [pyGet]
    · simp [pyGet, hk, ih, Ne.symm hk]

theorem pyGet_append_left {κ β : Type} [DecidableEq κ] (l m : List (κ × β)) (a : κ)
    (v : β) (h : pyGet l a = some v) : pyGet (l ++ m) a = some v := by
  induction l with
  | nil => simp [pyGet] at h
  | cons kv rest ih =>
    obtain ⟨k, w⟩ := kv
    by_cases hk : k = a
    · subst hk
      simp only [pyGet, if_pos rfl] at h ⊢
      exact h
    · simp only [pyGet, if_neg hk, List.cons_append] at h ⊢
      exact ih h

theorem pyGet_append_right {κ β : Type} [DecidableEq κ] (l m : List (κ × β)) (a : κ)
    (h : pyGet l a = none) : pyGet (l ++ m) a = pyGet m a := by
  induction l with
  | nil => simp
  | cons kv rest ih =>
    obtain ⟨k, w⟩ := kv
    by_cases hk : k = a
    · subst hk
      simp [pyGet] at h
    · simp only [pyGet, if_neg hk] at h
      simp only [List.cons_append, pyGet, if_neg hk]
      exact ih h

theorem pyGet_dictUpdate_self {κ β : Type} [DecidableEq κ] (l : List (κ × β)) (a : κ)
    (b : β) : pyGet (dictUpdate l a b) a = some b := by
  induction l with
  | nil => simp [dictUpdate, pyGet]
  | cons kv rest ih =>
    obtain ⟨k, v⟩ := kv
    by_cases hk : k = a
    · subst hk
      simp [dictUpdate, pyGet]
    · simp [dictUpdate, hk, pyGet, ih]

theorem pyGet_dictUpdate_ne {κ β : Type} [DecidableEq κ] (l : List (κ × β)) (a c : κ)
    (b : β) (h : a ≠ c) : pyGet (dictUpdate l a b) c = pyGet l c := by
  induction l with
  | nil => simp [dictUpdate, pyGet, h]
  | cons kv rest ih =>
    obtain ⟨k, v⟩ := kv
    by_cases hk : k = a
    · subst hk
      simp [dictUpdate, pyGet, h]
    · simp [dictUpdate, hk, pyGet, ih]

theorem dictUpdate_of_none {κ β : Type} [DecidableEq κ] (l : List (κ × β)) (a : κ)
    (b : β) (h : pyGet l a = none) : dictUpdate l a b = l ++ [(a, b)] := by
  induction l with
  | nil => simp [dictUpdate]
  | cons kv rest ih =>
    obtain ⟨k, v⟩ := kv
    by_cases hk : k = a
    · subst hk
      simp [pyGet] at h
    · simp only [pyGet, if_neg hk] at h
      simp [dictUpdate, hk, ih h]

theorem dictUpdate_of_some_self {κ β : Type} [DecidableEq κ] (l : List (κ × β)) (a : κ)
    (b : β) (h : pyGet l a = some b) : dictUpdate l a b = l := by
  induction l with
  | nil => simp [pyGet] at h
  | cons kv rest ih =>
    obtain ⟨k, v⟩ := kv
    by_cases hk : k = a
    · subst hk
      simp only [pyGet, if_pos] at h
      simp only [Option.some.injEq] at h
      simp [dictUpdate, h]
    · simp only [pyGet, if_neg hk] at h
      simp [dictUpdate, hk, ih h]

theorem map_fst_dictUpdate_of_some {κ β : Type} [DecidableEq κ] (l : List (κ × β))
    (a : κ) (b v : β) (h : pyGet l a = some v) :
    (dictUpdate l a b).map Prod.fst = l.map Prod.fst := by
  induction l with
  | nil => simp [pyGet] at h
  | cons kv rest ih =>
    obtain ⟨k, w⟩ := kv
    by_cases hk : k = a
    · subst hk
      simp [dictUpdate]
    · simp only [pyGet, if_neg hk] at h
      simp [dictUpdate, hk, ih h]

theorem sumValues_dictUpdate (l : List (String × Int)) (a : String) (b : Int) :
    sumValues (dictUpdate l a b) = sumValues l - (pyGet l a).getD 0 + b := by
  induction l with
  | nil => simp [dictUpdate, sumValues, pyGet]
  | cons kv rest ih =>
    obtain ⟨k, v⟩ := kv
    by_cases hk : k = a
    · subst hk
      simp only [dictUpdate, if_pos, pyGet, sumValues, List.map_cons, List.sum_cons,
        Option.getD_some]
      ring
    · simp only [dictUpdate, if_neg hk, pyGet, sumValues, List.map_cons, List.sum_cons] at ih ⊢
      rw [ih]
      ring

theorem update_basename_counts_loop_frame (current_date : Int) :
    ∀ (totals : List (List String × Int))
      (acc : Store × List (List String × List (Int × Int))) (key : List String),
      key ∉ totals.map Prod.fst →
      (update_basename_counts_loop current_date totals acc).1 key = acc.1 key := by
  intro totals
  induction totals with
  | nil => intro acc key _; rfl
  | cons kv rest ih =>
    intro acc key h
    simp only [List.map_cons, List.mem_cons] at h
    push_neg at h
    rw [update_basename_counts_loop, ih _ key h.2]
    simp only [save_json, if_neg h.1]

theorem foldl_dictUpdate_append (s : List (Int × Int)) :
    ∀ acc : List (Int × Int), (∀ x ∈ s, x.1 ∉ acc.map Prod.fst) →
      (s.map Prod.fst).Nodup →
      s.foldl (fun a kv => dictUpdate a kv.1 kv.2) acc = acc ++ s := by
  induction s with
  | nil => intro acc _ _; simp
  | cons kv rest ih =>
    intro acc hdisj hnd
    simp only [List.foldl_cons]
    have hnone : pyGet acc kv.1 = none := by
      rw [pyGet_eq_none]
      exact hdisj kv (List.mem_cons_self kv rest)
    rw [dictUpdate_of_none acc kv.1 kv.2 hnone]
    simp only [List.map_cons, List.nodup_cons] at hnd
    rw [ih (acc ++ [(kv.1, kv.2)])]
    · simp
    · intro x hx
      simp only [List.map_append, List.mem_append, List.map_cons]
      rintro (hxl | hxr)
      · exact hdisj x (List.mem_cons_of_mem kv hx) hxl
      · simp only [List.map_cons, List.map_nil, List.mem_singleton] at hxr
        exact hnd.1 (hxr ▸ List.mem_map_of_mem Prod.fst hx)
    · exact hnd.2

theorem nodup_fst_pairwise {β : Type} (l : List (Int × β))
    (h : (l.map Prod.fst).Nodup) : l.Pairwise (fun a b => a.1 ≠ b.1) := by
  induction l with
  | nil => exact List.Pairwise.nil
  | cons x rest ih =>
    simp only [List.map_cons, List.nodup_cons] at h
    refine List.Pairwise.cons ?_ (ih h.2)
    intro y hy hxy
    exact h.1 (hxy ▸ List.mem_map_of_mem Prod.fst hy)

theorem sorted_nodup_pairwise_lt (l : List (Int × Int))
    (hs : l.Pairwise pairLe) (hnd : (l.map Prod.fst).Nodup) :
    l.Pairwise (fun a b => a.1 < b.1) := by
  have hne := nodup_fst_pairwise l hnd
  exact (hs.and hne).imp (by
    rintro a b ⟨hle, hne2⟩
    rcases hle with h | h
    · exact h
    · exact absurd h.1 hne2)

theorem dedupScan_eq_specDedupTail :
    ∀ (p : Int) (l : List (Int × Int)),
      l.Pairwise (fun a b => a.1 < b.1) →
      (∀ x ∈ l, x.1 < sentinelDate) →
      (∀ x ∈ l, x.2 < maxsize) →
      dedupScan p l = specDedupTail p l
  | _, [], _, _, _ => rfl
  | p, [c], _, hdate, hhigh => by
    have hd : ¬c.1 = (List.headD [] (sentinelDate, maxsize)).1 := by
      simpa using (hdate c (by simp)).ne
    have hh : ¬c.2 = (List.headD [] (sentinelDate, maxsize)).2 := by
      simpa using (hhigh c (by simp)).ne
    simp only [dedupScan, specDedupTail]
    rw [if_neg (by simpa using fun _ => hh), if_neg (by simpa using hd)]
  | p, c :: nxt :: rest, hp, hdate, hhigh => by
    have hd : ¬c.1 = nxt.1 := ((List.pairwise_cons.1 hp).1 nxt (by simp)).ne
    have ih := dedupScan_eq_specDedupTail c.2 (nxt :: rest)
      (List.pairwise_cons.1 hp).2
      (fun x hx => hdate x (List.mem_cons_of_mem c hx))
      (fun x hx => hhigh x (List.mem_cons_of_mem c hx))
    have hcode : dedupScan p (c :: nxt :: rest)
        = if p = c.2 ∧ c.2 = nxt.2 then dedupScan c.2 (nxt :: rest)
          else if c.1 = nxt.1 then dedupScan c.2 (nxt :: rest)
          else c :: dedupScan c.2 (nxt :: rest) := rfl
    have hspec : specDedupTail p (c :: nxt :: rest)
        = if p = c.2 ∧ c.2 = nxt.2 then specDedupTail c.2 (nxt :: rest)
          else c :: specDedupTail c.2 (nxt :: rest) := rfl
    rw [hcode, hspec]
    by_cases hflat : p = c.2 ∧ c.2 = nxt.2
    · rw [if_pos hflat, if_pos hflat, ih]
    · rw [if_neg hflat, if_neg hflat, if_neg hd, ih]

theorem specDedupTail_getLast (p : Int) (l : List (Int × Int)) (h : l ≠ []) :
    (specDedupTail p l).getLast? = l.getLast? := by
  induction l generalizing p with
  | nil => exact absurd rfl h
  | cons c rest ih =>
    match rest with
    | [] => rfl
    | nxt :: rest2 =>
      have ihc := ih (p := c.2) (by simp)
      by_cases hflat : p = c.2 ∧ c.2 = nxt.2
      · rw [specDedupTail, if_pos hflat, ihc, List.getLast?_cons_cons]
      · rw [specDedupTail, if_neg hflat]
        have hne : specDedupTail c.2 (nxt :: rest2) ≠ [] := by
          intro hz
          rw [hz] at ihc
          have hs : ((nxt :: rest2).getLast?).isSome :=
            List.getLast?_isSome.2 (by simp)
          rw [← ihc] at hs
          simp at hs
        obtain ⟨z, Z2, hZ⟩ := List.exists_cons_of_ne_nil hne
        rw [hZ, List.getLast?_cons_cons, ← hZ, ihc, List.getLast?_cons_cons]

theorem specDedup_head (l : List (Int × Int)) : (specDedup l).head? = l.head? := by
  cases l <;> rfl

theorem specDedup_getLast (l : List (Int × Int)) :
    (specDedup l).getLast? = l.getLast? := by
  match l with
  | [] => rfl
  | [c] => rfl
  | c :: nxt :: rest =>
    have htail := specDedupTail_getLast c.2 (nxt :: rest) (by simp)
    have hne : specDedupTail c.2 (nxt :: rest) ≠ [] := by
      intro hz
      rw [hz] at htail
      have hs : ((nxt :: rest).getLast?).isSome := List.getLast?_isSome.2 (by simp)
      rw [← htail] at hs
      simp at hs
    obtain ⟨z, Z2, hZ⟩ := List.exists_cons_of_ne_nil hne
    show (c :: specDedupTail c.2 (nxt :: rest)).getLast? = _
    rw [hZ, List.getLast?_cons_cons, ← hZ, htail, List.getLast?_cons_cons]

theorem pyGet_eq_some_split {κ β : Type} [DecidableEq κ] (l : List (κ × β)) (a : κ)
    (v : β) (h : pyGet l a = some v) :
    ∃ l1 l2, l = l1 ++ (a, v) :: l2 ∧ a ∉ l1.map Prod.fst := by
  induction l with
  | nil => simp [pyGet] at h
  | cons kv rest ih =>
    obtain ⟨k, w⟩ := kv
    by_cases hk : k = a
    · subst hk
      simp only [pyGet, if_pos] at h
      simp only [Option.some.injEq] at h
      exact ⟨[], rest, by simp [h], by simp⟩
    · simp only [pyGet, if_neg hk] at h
      obtain ⟨l1, l2, heq, hmem⟩ := ih h
      refine ⟨(k, w) :: l1, l2, by simp [heq], ?_⟩
      simp only [List.map_cons, List.mem_cons]
      push_neg
      exact ⟨fun hc => hk hc.symm, hmem⟩

theorem pyGet2_dictUpdate2_ne_key (rcpd : List (Int × List (String × Int)))
    (dw d2 : Int) (kw k : String) (t : Int) (hk : kw ≠ k) :
    pyGet2 (dictUpdate2 rcpd dw kw t) d2 k = pyGet2 rcpd d2 k := by
  unfold dictUpdate2 pyGet2
  cases hw : pyGet rcpd dw with
  | some inner =>
    by_cases hd : dw = d2
    · subst hd
      rw [pyGet_dictUpdate_self, hw]
      dsimp only
      exact pyGet_dictUpdate_ne _ _ _ _ hk
    · rw [pyGet_dictUpdate_ne _ _ _ _ hd]
  | none =>
    by_cases hd : dw = d2
    · subst hd
      rw [pyGet_append_right _ _ _ hw, hw]
      simp [pyGet, hk]
    · cases h2 : pyGet rcpd d2 with
      | some inner2 => rw [pyGet_append_left _ _ _ _ h2]
      | none =>
        rw [pyGet_append_right _ _ _ h2]
        simp [pyGet, hd]

theorem pyGet2_dictUpdate2_ne_date (rcpd : List (Int × List (String × Int)))
    (dw d2 : Int) (kw k : String) (t : Int) (hd : dw ≠ d2) :
    pyGet2 (dictUpdate2 rcpd dw kw t) d2 k = pyGet2 rcpd d2 k := by
  unfold dictUpdate2 pyGet2
  cases hw : pyGet rcpd dw with
  | some inner => rw [pyGet_dictUpdate_ne _ _ _ _ hd]
  | none =>
    cases h2 : pyGet rcpd d2 with
    | some inner2 => rw [pyGet_append_left _ _ _ _ h2]
    | none =>
      rw [pyGet_append_right _ _ _ h2]
      simp [pyGet, hd]

theorem pyGet2_dictUpdate2_self (rcpd : List (Int × List (String × Int))) (dw : Int)
    (kw : String) (t : Int) :
    pyGet2 (dictUpdate2 rcpd dw kw t) dw kw = some t := by
  unfold dictUpdate2 pyGet2
  cases hw : pyGet rcpd dw with
  | some inner =>
    rw [pyGet_dictUpdate_self]
    dsimp only
    exact pyGet_dictUpdate_self _ _ _
  | none =>
    rw [pyGet_append_right _ _ _ hw]
    simp [pyGet]

theorem pyGet_append_single_ne {κ β : Type} [DecidableEq κ] (l : List (κ × β))
    (k1 k : κ) (w : β) (h : k1 ≠ k) : pyGet (l ++ [(k1, w)]) k = pyGet l k := by
  cases hc : pyGet l k with
  | some v => exact pyGet_append_left _ _ _ _ hc
  | none =>
    rw [pyGet_append_right _ _ _ hc]
    simp [pyGet, h, hc]

theorem recentInner_nok (tc : List (String × Int)) (d : Int) (k : String) :
    ∀ (kts : List (String × Int)) (st : RecentState), (∀ kv ∈ kts, kv.1 ≠ k) →
      pyGet (kts.foldl (recentInner tc d) st).prev k = pyGet st.prev k
        ∧ pyGet (kts.foldl (recentInner tc d) st).rtc k = pyGet st.rtc k
        ∧ ∀ d2, pyGet2 (kts.foldl (recentInner tc d) st).rcpd d2 k
            = pyGet2 st.rcpd d2 k := by
  intro kts
  induction kts with
  | nil => intro st _; exact ⟨rfl, rfl, fun _ => rfl⟩
  | cons kv rest ih =>
    intro st hks
    have hkv : kv.1 ≠ k := hks kv (by simp)
    have hrest : ∀ x ∈ rest, x.1 ≠ k := fun x hx => hks x (List.mem_cons_of_mem kv hx)
    rw [List.foldl_cons]
    obtain ⟨ihp, ihr, ihc⟩ := ih (recentInner tc d st kv) hrest
    refine ⟨?_, ?_, ?_⟩
    · rw [ihp]
      unfold recentInner
      by_cases hev : kv.2 > (pyGet st.prev kv.1).getD 0
      · rw [if_pos hev]
        exact pyGet_dictUpdate_ne _ _ _ _ hkv
      · rw [if_neg hev]
    · rw [ihr]
      unfold recentInner
      by_cases hev : kv.2 > (pyGet st.prev kv.1).getD 0
      · rw [if_pos hev]
        by_cases hsome : (pyGet st.rtc kv.1).isSome
        · rw [if_pos hsome]
        · rw [if_neg hsome]
          exact pyGet_append_single_ne _ _ _ _ hkv
      · rw [if_neg hev]
    · intro d2
      rw [ihc d2]
      unfold recentInner
      by_cases hev : kv.2 > (pyGet st.prev kv.1).getD 0
      · rw [if_pos hev]
        exact pyGet2_dictUpdate2_ne_key _ _ _ _ _ _ hkv
      · rw [if_neg hev]

theorem recentInner_rtc_some (tc : List (String × Int)) (d : Int) (k : String)
    (v : Int) : ∀ (kts : List (String × Int)) (st : RecentState),
      pyGet st.rtc k = some v →
      pyGet (kts.foldl (recentInner tc d) st).rtc k = some v := by
  intro kts
  induction kts with
  | nil => intro st h; exact h
  | cons kv rest ih =>
    intro st h
    rw [List.foldl_cons]
    refine ih _ ?_
    unfold recentInner
    by_cases hev : kv.2 > (pyGet st.prev kv.1).getD 0
    · rw [if_pos hev]
      by_cases hsome : (pyGet st.rtc kv.1).isSome
      · rw [if_pos hsome]
        exact h
      · rw [if_neg hsome]
        exact pyGet_append_left _ _ _ _ h
    · rw [if_neg hev]
      exact h

theorem recentStep_rtc_some (m : Int) (tc : List (String × Int)) (k : String)
    (v : Int) : ∀ (entries : List (Int × List (String × Int))) (st : RecentState),
      pyGet st.rtc k = some v →
      pyGet (entries.foldl (recentStep m tc) st).rtc k = some v := by
  intro entries
  induction entries with
  | nil => intro st h; exact h
  | cons e rest ih =>
    intro st h
    rw [List.foldl_cons]
    refine ih _ ?_
    unfold recentStep
    by_cases hskip : e.1 < m
    · rw [if_pos hskip]
      exact h
    · rw [if_neg hskip]
      exact recentInner_rtc_some tc e.1 k v e.2 st h

theorem recentInner_prev (tc : List (String × Int)) (d : Int) (k : String) :
    ∀ (kts : List (String × Int)) (st : RecentState), (kts.map Prod.fst).Nodup →
      (pyGet (kts.foldl (recentInner tc d) st).prev k).getD 0
        = match pyGet kts k with
          | some t => max ((pyGet st.prev k).getD 0) t
          | none => (pyGet st.prev k).getD 0 := by
  intro kts
  induction kts with
  | nil => intro st _; rfl
  | cons kv rest ih =>
    intro st hnd
    simp only [List.map_cons, List.nodup_cons] at hnd
    rw [List.foldl_cons]
    by_cases hkv : kv.1 = k
    · have hrest : ∀ x ∈ rest, x.1 ≠ k := by
        intro x hx hc
        refine hnd.1 ?_
        have hm : x.1 ∈ rest.map Prod.fst := List.mem_map_of_mem Prod.fst hx
        rw [hc, ← hkv] at hm
        exact hm
      rw [(recentInner_nok tc d k rest _ hrest).1]
      have hget : pyGet (kv :: rest) k = some kv.2 := by
        simp [pyGet, hkv]
      rw [hget]
      dsimp only
      unfold recentInner
      rw [hkv] at *
      by_cases hev : kv.2 > (pyGet st.prev k).getD 0
      · rw [if_pos hev, pyGet_dictUpdate_self]
        simp only [Option.getD_some]
        exact (max_eq_right (le_of_lt hev)).symm
      · rw [if_neg hev]
        exact (max_eq_left (by omega)).symm
    · have hget : pyGet (kv :: rest) k = pyGet rest k := by
        simp [pyGet, hkv]
      rw [hget, ih _ hnd.2]
      have hprev : pyGet (recentInner tc d st kv).prev k = pyGet st.prev k := by
        unfold recentInner
        by_cases hev : kv.2 > (pyGet st.prev kv.1).getD 0
        · rw [if_pos hev]
          exact pyGet_dictUpdate_ne _ _ _ _ hkv
        · rw [if_neg hev]
      rw [hprev]

theorem recentStep_prev (m : Int) (tc : List (String × Int)) (k : String) :
    ∀ (entries : List (Int × List (String × Int))) (st : RecentState),
      (∀ e ∈ entries, (e.2.map Prod.fst).Nodup) →
      (pyGet (entries.foldl (recentStep m tc) st).prev k).getD 0
        = winMaxFrom m k ((pyGet st.prev k).getD 0) entries := by
  intro entries
  induction entries with
  | nil => intro st _; rfl
  | cons e rest ih =>
    intro st hinner
    rw [List.foldl_cons]
    simp only [winMaxFrom, List.foldl_cons]
    by_cases hskip : e.1 < m
    · rw [ih _ (fun x hx => hinner x (List.mem_cons_of_mem e hx))]
      unfold recentStep
      rw [if_pos hskip]
      simp only [winMaxFrom, if_pos hskip]
    · rw [ih _ (fun x hx => hinner x (List.mem_cons_of_mem e hx))]
      unfold recentStep
      rw [if_neg hskip]
      rw [recentInner_prev tc e.1 k e.2 st (hinner e (by simp))]
      simp only [winMaxFrom, if_neg hskip]

theorem recentInner_rcpd_ne_date (tc : List (String × Int)) (d : Int) (k : String)
    (d2 : Int) (hd : d ≠ d2) :
    ∀ (kts : List (String × Int)) (st : RecentState),
      pyGet2 (kts.foldl (recentInner tc d) st).rcpd d2 k = pyGet2 st.rcpd d2 k := by
  intro kts
  induction kts with
  | nil => intro st; rfl
  | cons kv rest ih =>
    intro st
    rw [List.foldl_cons, ih]
    unfold recentInner
    by_cases hev : kv.2 > (pyGet st.prev kv.1).getD 0
    · rw [if_pos hev]
      exact pyGet2_dictUpdate2_ne_date _ _ _ _ _ _ hd
    · rw [if_neg hev]

theorem recentStep_rcpd_ne (m : Int) (tc : List (String × Int)) (k : String)
    (d2 : Int) : ∀ (entries : List (Int × List (String × Int))) (st : RecentState),
      (∀ e ∈ entries, e.1 ≠ d2) →
      pyGet2 (entries.foldl (recentStep m tc) st).rcpd d2 k
        = pyGet2 st.rcpd d2 k := by
  intro entries
  induction entries with
  | nil => intro st _; rfl
  | cons e rest ih =>
    intro st hne
    rw [List.foldl_cons, ih _ (fun x hx => hne x (List.mem_cons_of_mem e hx))]
    unfold recentStep
    by_cases hskip : e.1 < m
    · rw [if_pos hskip]
    · rw [if_neg hskip]
      exact recentInner_rcpd_ne_date tc e.1 k d2 (hne e (by simp)) e.2 st

theorem recentInner_app (tc : List (String × Int)) (d : Int) (st : RecentState)
    (kt : String × Int) :
    recentInner tc d st kt
      = if kt.2 > (pyGet st.prev kt.1).getD 0 then
          { rcpd := dictUpdate2 st.rcpd d kt.1 kt.2
            rtc :=
              if (pyGet st.rtc kt.1).isSome then st.rtc
              else st.rtc ++ [(kt.1, (pyGet tc kt.1).getD 0 - kt.2)]
            prev := dictUpdate st.prev kt.1 kt.2 }
        else st := rfl

theorem recentStep_app (m : Int) (tc : List (String × Int)) (st : RecentState)
    (e : Int × List (String × Int)) :
    recentStep m tc st e
      = if e.1 < m then st else e.2.foldl (recentInner tc e.1) st := rfl

theorem recentInner_rcpd_event (tc : List (String × Int)) (d : Int) (k : String)
    (t : Int) (kts : List (String × Int)) (st : RecentState)
    (hnd : (kts.map Prod.fst).Nodup) (hk : pyGet kts k = some t)
    (h0 : pyGet2 st.rcpd d k = none) :
    pyGet2 ((kts.foldl (recentInner tc d) st).rcpd) d k
      = if (pyGet st.prev k).getD 0 < t then some t else none := by
  obtain ⟨kpre, kpost, heq, hpre⟩ := pyGet_eq_some_split kts k t hk
  subst heq
  have hpreK : ∀ kv ∈ kpre, kv.1 ≠ k := by
    intro kv hkv hc
    have hm := List.mem_map_of_mem Prod.fst hkv
    rw [hc] at hm
    exact hpre hm
  have hpostK : ∀ kv ∈ kpost, kv.1 ≠ k := by
    intro kv hkv hc
    have hmap := hnd
    rw [List.map_append, List.map_cons] at hmap
    have h2 := hmap.of_append_right
    rw [List.nodup_cons] at h2
    have hm := List.mem_map_of_mem Prod.fst hkv
    rw [hc] at hm
    exact h2.1 hm
  rw [List.foldl_append, List.foldl_cons]
  obtain ⟨hp1, _, hc1⟩ := recentInner_nok tc d k kpre st hpreK
  obtain ⟨_, _, hc2⟩ := recentInner_nok tc d k kpost
    (recentInner tc d (kpre.foldl (recentInner tc d) st) (k, t)) hpostK
  rw [hc2 d, recentInner_app]
  dsimp only
  rw [hp1]
  by_cases hev : t > (pyGet st.prev k).getD 0
  · rw [if_pos hev, if_pos hev]
    exact pyGet2_dictUpdate2_self _ _ _ _
  · rw [if_neg hev, if_neg hev, hc1 d]
    exact h0

theorem recentInner_rtc_first (tc : List (String × Int)) (d : Int) (k : String)
    (kts : List (String × Int)) (st : RecentState)
    (hnd : (kts.map Prod.fst).Nodup)
    (hclean : pyGet st.rtc k = none) (hprev : (pyGet st.prev k).getD 0 = 0) :
    pyGet ((kts.foldl (recentInner tc d) st).rtc) k
      = match pyGet kts k with
        | some t => if 0 < t then some ((pyGet tc k).getD 0 - t) else none
        | none => none := by
  cases hk : pyGet kts k with
  | none =>
    have hks : ∀ kv ∈ kts, kv.1 ≠ k := by
      intro kv hkv hc
      have hm := List.mem_map_of_mem Prod.fst hkv
      rw [hc] at hm
      exact (pyGet_eq_none kts k).1 hk hm
    rw [(recentInner_nok tc d k kts st hks).2.1, hclean]
  | some t =>
    obtain ⟨kpre, kpost, heq, hpre⟩ := pyGet_eq_some_split kts k t hk
    subst heq
    have hpreK : ∀ kv ∈ kpre, kv.1 ≠ k := by
      intro kv hkv hc
      have hm := List.mem_map_of_mem Prod.fst hkv
      rw [hc] at hm
      exact hpre hm
    have hpostK : ∀ kv ∈ kpost, kv.1 ≠ k := by
      intro kv hkv hc
      have hmap := hnd
      rw [List.map_append, List.map_cons] at hmap
      have h2 := hmap.of_append_right
      rw [List.nodup_cons] at h2
      have hm := List.mem_map_of_mem Prod.fst hkv
      rw [hc] at hm
      exact h2.1 hm
    rw [List.foldl_append, List.foldl_cons]
    obtain ⟨hp1, hr1, _⟩ := recentInner_nok tc d k kpre st hpreK
    obtain ⟨_, hr2, _⟩ := recentInner_nok tc d k kpost
      (recentInner tc d (kpre.foldl (recentInner tc d) st) (k, t)) hpostK
    rw [hr2, recentInner_app]
    dsimp only
    rw [hp1, hprev, hr1, hclean]
    by_cases hev : t > 0
    · rw [if_pos hev]
      have hgoal : (0 : Int) < t := hev
      rw [if_pos hgoal]
      dsimp only
      simp only [Option.isSome_none, Bool.false_eq_true, if_false]
      rw [pyGet_append_right _ _ _ (by rw [hr1]; exact hclean)]
      simp [pyGet]
    · rw [if_neg hev]
      have hgoal : ¬(0 : Int) < t := hev
      rw [if_neg hgoal]
      rw [hr1]
      exact hclean

theorem recentStep_rtc_first (m : Int) (tc : List (String × Int)) (k : String) :
    ∀ (entries : List (Int × List (String × Int))) (st : RecentState),
      (∀ e ∈ entries, (e.2.map Prod.fst).Nodup) →
      pyGet st.rtc k = none → (pyGet st.prev k).getD 0 = 0 →
      pyGet ((entries.foldl (recentStep m tc) st).rtc) k
        = (firstEventTotal m k entries).map (fun t => (pyGet tc k).getD 0 - t) := by
  intro entries
  induction entries with
  | nil =>
    intro st _ hclean _
    simpa [firstEventTotal] using hclean
  | cons e rest ih =>
    intro st hinner hclean hprev
    have hinnerR : ∀ x ∈ rest, (x.2.map Prod.fst).Nodup := fun x hx =>
      hinner x (List.mem_cons_of_mem e hx)
    have hfe : firstEventTotal m k (e :: rest)
        = if e.1 < m then firstEventTotal m k rest
          else match pyGet e.2 k with
            | some t => if 0 < t then some t else firstEventTotal m k rest
            | none => firstEventTotal m k rest := rfl
    rw [List.foldl_cons, hfe, recentStep_app]
    by_cases hskip : e.1 < m
    · rw [if_pos hskip, if_pos hskip]
      exact ih st hinnerR hclean hprev
    · rw [if_neg hskip, if_neg hskip]
      have hrtc1 := recentInner_rtc_first tc e.1 k e.2 st (hinner e (by simp))
        hclean hprev
      have hprev1 := recentInner_prev tc e.1 k e.2 st (hinner e (by simp))
      cases hkt : pyGet e.2 k with
      | none =>
        rw [hkt] at hrtc1 hprev1
        dsimp only at hrtc1 hprev1 ⊢
        rw [hprev] at hprev1
        exact ih _ hinnerR hrtc1 hprev1
      | some t =>
        rw [hkt] at hrtc1 hprev1
        dsimp only at hrtc1 hprev1 ⊢
        by_cases hpos : 0 < t
        · rw [if_pos hpos] at hrtc1
          rw [recentStep_rtc_some m tc k _ rest _ hrtc1]
          simp [hpos]
        · rw [if_neg hpos] at hrtc1
          rw [hprev] at hprev1
          have hprev0 : (pyGet ((e.2.foldl (recentInner tc e.1) st)).prev k).getD 0
              = 0 := by
            rw [hprev1]
            exact max_eq_left (by omega)
          rw [ih _ hinnerR hrtc1 hprev0]
          simp [hpos]

theorem pairwise_take_drop {α : Type} (r : α → α → Prop) (l : List α) (n : Nat)
    (h : l.Pairwise r) : ∀ x ∈ l.take n, ∀ y ∈ l.drop n, r x y := by
  have hsplit : l = l.take n ++ l.drop n := (List.take_append_drop n l).symm
  rw [hsplit, List.pairwise_append] at h
  exact h.2.2

theorem pyGet_isSome_of_mem {κ β : Type} [DecidableEq κ] (l : List (κ × β)) (x : κ)
    (h : x ∈ l.map Prod.fst) : ∃ v, pyGet l x = some v := by
  cases hc : pyGet l x with
  | some v => exact ⟨v, rfl⟩
  | none => exact absurd h ((pyGet_eq_none l x).1 hc)

theorem assoc_ext {κ β : Type} [DecidableEq κ] :
    ∀ (l1 l2 : List (κ × β)), l1.map Prod.fst = l2.map Prod.fst →
      (l1.map Prod.fst).Nodup → (∀ x, pyGet l1 x = pyGet l2 x) → l1 = l2
  | [], [], _, _, _ => rfl
  | [], kv :: r2, hk, _, _ => by simp at hk
  | kv :: r1, [], hk, _, _ => by simp at hk
  | (k1, v1) :: r1, (k2, v2) :: r2, hk, hnd, hv => by
    simp only [List.map_cons, List.cons.injEq] at hk
    have hkk : k1 = k2 := hk.1
    subst hkk
    have hv1 : pyGet ((k1, v1) :: r1) k1 = some v1 := by simp [pyGet]
    have hv2 : pyGet ((k1, v2) :: r2) k1 = some v2 := by simp [pyGet]
    have hvv : v1 = v2 := by
      have := hv k1
      rw [hv1, hv2] at this
      exact Option.some.inj this
    subst hvv
    simp only [List.map_cons, List.nodup_cons] at hnd
    have htail : ∀ x, pyGet r1 x = pyGet r2 x := by
      intro x
      by_cases hx : x = k1
      · subst hx
        have h1 : pyGet r1 x = none := (pyGet_eq_none r1 x).2 hnd.1
        have h2 : pyGet r2 x = none := by
          rw [pyGet_eq_none, ← hk.2]
          exact hnd.1
        rw [h1, h2]
      · have hvx := hv x
        have hne : ¬ k1 = x := fun hc => hx hc.symm
        simp only [pyGet] at hvx
        rw [if_neg hne, if_neg hne] at hvx
        exact hvx
    rw [assoc_ext r1 r2 hk.2 hnd.2 htail]

theorem pyGet_map_entry {κ β γ : Type} [DecidableEq κ] (l : List (κ × β))
    (h : κ → β → γ) (x : κ) :
    pyGet (l.map (fun kv => (kv.1, h kv.1 kv.2))) x = (pyGet l x).map (h x) := by
  induction l with
  | nil => rfl
  | cons kv rest ih =>
    obtain ⟨k, v⟩ := kv
    by_cases hk : k = x
    · subst hk
      simp [pyGet]
    · simp [pyGet, hk, ih]

theorem sumUpdateStep_fst :
    ∀ (counts tmp : List (String × Int)) (s : Int),
      (sumUpdateStep tmp s counts).1
        = counts.foldl (fun a kv => dictUpdate a kv.1 kv.2) tmp
  | [], _, _ => rfl
  | (k, t) :: rest, tmp, s => by
    rw [List.foldl_cons]
    exact sumUpdateStep_fst rest (dictUpdate tmp k t) _

theorem sumUpdateStep_snd :
    ∀ (counts tmp : List (String × Int)) (s : Int), s = sumValues tmp →
      (sumUpdateStep tmp s counts).2 = sumValues (sumUpdateStep tmp s counts).1
  | [], tmp, s, hs => hs
  | (k, t) :: rest, tmp, s, hs => by
    have hnew : s - ((pyGet tmp k).getD 0 - t) = sumValues (dictUpdate tmp k t) := by
      rw [sumValues_dictUpdate, hs]
      ring
    exact sumUpdateStep_snd rest (dictUpdate tmp k t) _ hnew

theorem foldl_dictUpdate_fst :
    ∀ (counts tmp : List (String × Int)),
      (∀ kv ∈ counts, kv.1 ∈ tmp.map Prod.fst) →
      (counts.foldl (fun a kv => dictUpdate a kv.1 kv.2) tmp).map Prod.fst
        = tmp.map Prod.fst
  | [], _, _ => rfl
  | (k, t) :: rest, tmp, hk => by
    rw [List.foldl_cons]
    obtain ⟨v, hv⟩ := pyGet_isSome_of_mem tmp k (hk (k, t) (by simp))
    have hfst := map_fst_dictUpdate_of_some tmp k t v hv
    rw [foldl_dictUpdate_fst rest (dictUpdate tmp k t)
      (fun kv hkv => by rw [hfst]; exact hk kv (List.mem_cons_of_mem _ hkv)), hfst]

theorem foldl_dictUpdate_pyGet :
    ∀ (counts tmp : List (String × Int)) (x : String), (counts.map Prod.fst).Nodup →
      pyGet (counts.foldl (fun a kv => dictUpdate a kv.1 kv.2) tmp) x
        = match pyGet counts x with
          | some t => some t
          | none => pyGet tmp x
  | [], _, _, _ => rfl
  | (k, t) :: rest, tmp, x, hnd => by
    simp only [List.map_cons, List.nodup_cons] at hnd
    rw [List.foldl_cons, foldl_dictUpdate_pyGet rest (dictUpdate tmp k t) x hnd.2]
    by_cases hx : k = x
    · subst hx
      have hrest : pyGet rest k = none := (pyGet_eq_none rest k).2 hnd.1
      rw [hrest]
      simp only [pyGet, if_pos]
      exact pyGet_dictUpdate_self tmp k t
    · simp only [pyGet, if_neg hx]
      cases pyGet rest x with
      | some u => rfl
      | none => exact pyGet_dictUpdate_ne tmp k x t hx

theorem backValue_append_single (k : String) (f : Int × List (String × Int)) :
    ∀ (entries : List (Int × List (String × Int))) (dflt : Int),
      backValue k dflt (entries ++ [f])
        = backValue k ((pyGet f.2 k).getD dflt) entries
  | [], dflt => by
    show backValue k dflt [f] = (pyGet f.2 k).getD dflt
    unfold backValue
    cases pyGet f.2 k with
    | some t => rfl
    | none => rfl
  | e :: rest, dflt => by
    show backValue k dflt ((e :: rest) ++ [f]) = _
    rw [List.cons_append]
    unfold backValue
    cases pyGet e.2 k with
    | some t => rfl
    | none => exact backValue_append_single k f rest dflt

theorem backTmp_nil (tmp : List (String × Int)) : backTmp [] tmp = tmp := by
  unfold backTmp backValue
  simp

theorem backTmp_fold (entries : List (Int × List (String × Int))) (δ : Int)
    (f2 tmp : List (String × Int)) (hkeys : ∀ kv ∈ f2, kv.1 ∈ tmp.map Prod.fst)
    (hf2 : (f2.map Prod.fst).Nodup) (htmp : (tmp.map Prod.fst).Nodup) :
    backTmp entries (f2.foldl (fun a kv => dictUpdate a kv.1 kv.2) tmp)
      = backTmp (entries ++ [(δ, f2)]) tmp := by
  have hfst := foldl_dictUpdate_fst f2 tmp hkeys
  refine assoc_ext _ _ ?_ ?_ ?_
  · unfold backTmp
    rw [List.map_map, List.map_map]
    have h1 : (Prod.fst ∘ fun kv : String × Int =>
        (kv.1, backValue kv.1 kv.2 entries)) = Prod.fst := rfl
    have h2 : (Prod.fst ∘ fun kv : String × Int =>
        (kv.1, backValue kv.1 kv.2 (entries ++ [(δ, f2)]))) = Prod.fst := rfl
    rw [h1, h2, hfst]
  · unfold backTmp
    rw [List.map_map]
    have h1 : (Prod.fst ∘ fun kv : String × Int =>
        (kv.1, backValue kv.1 kv.2 entries)) = Prod.fst := rfl
    rw [h1, hfst]
    exact htmp
  · intro x
    unfold backTmp
    rw [pyGet_map_entry _ (fun k v => backValue k v entries) x,
      pyGet_map_entry _ (fun k v => backValue k v (entries ++ [(δ, f2)])) x,
      foldl_dictUpdate_pyGet f2 tmp x hf2]
    cases hf : pyGet f2 x with
    | some t =>
      obtain ⟨v0, hv0⟩ := pyGet_isSome_of_mem tmp x (by
        obtain ⟨l1, l2, heq, _⟩ := pyGet_eq_some_split f2 x t hf
        exact hkeys (x, t) (by rw [heq]; simp))
      rw [hv0]
      show some (backValue x t entries) = some (backValue x v0 (entries ++ [(δ, f2)]))
      rw [backValue_append_single x (δ, f2) entries v0]
      dsimp only
      rw [hf]
      rfl
    | none =>
      cases hv : pyGet tmp x with
      | none => rfl
      | some v0 =>
        show some (backValue x v0 entries)
          = some (backValue x v0 (entries ++ [(δ, f2)]))
        rw [backValue_append_single x (δ, f2) entries v0]
        dsimp only
        rw [hf]
        rfl

theorem sumWalk_pyGet :
    ∀ (rpre : List (Int × List (String × Int))) (e : Int × List (String × Int))
      (rpost : List (Int × List (String × Int))) (tmp : List (String × Int)) (s : Int),
      s = sumValues tmp →
      (∀ en ∈ rpre ++ e :: rpost, ∀ kv ∈ en.2, kv.1 ∈ tmp.map Prod.fst) →
      (∀ en ∈ rpre ++ e :: rpost, (en.2.map Prod.fst).Nodup) →
      (tmp.map Prod.fst).Nodup →
      (∀ en ∈ rpre, en.1 ≠ e.1) →
      pyGet (sumWalk tmp s (rpre ++ e :: rpost)) e.1
        = some (sumValues (backTmp (e :: rpre.reverse) tmp))
  | [], e, rpost, tmp, s, hs, hkeys, hinner, htmp, _ => by
    have hstep : sumWalk tmp s ([] ++ e :: rpost)
        = (e.1, (sumUpdateStep tmp s e.2).2)
          :: sumWalk (sumUpdateStep tmp s e.2).1 (sumUpdateStep tmp s e.2).2 rpost :=
      rfl
    rw [hstep]
    simp only [pyGet, if_pos, List.reverse_nil]
    have hv : (sumUpdateStep tmp s e.2).2 = sumValues (backTmp [e] tmp) := by
      rw [sumUpdateStep_snd e.2 tmp s hs, sumUpdateStep_fst e.2 tmp s]
      have h1 : backTmp [] (e.2.foldl (fun a kv => dictUpdate a kv.1 kv.2) tmp)
          = backTmp ([] ++ [(e.1, e.2)]) tmp :=
        backTmp_fold [] e.1 e.2 tmp (hkeys e (by simp)) (hinner e (by simp)) htmp
      rw [backTmp_nil] at h1
      rw [h1]
      simp
    rw [hv]
  | f :: rpre2, e, rpost, tmp, s, hs, hkeys, hinner, htmp, hne => by
    have hstep : sumWalk tmp s ((f :: rpre2) ++ e :: rpost)
        = (f.1, (sumUpdateStep tmp s f.2).2)
          :: sumWalk (sumUpdateStep tmp s f.2).1 (sumUpdateStep tmp s f.2).2
              (rpre2 ++ e :: rpost) := rfl
    rw [hstep]
    have hfne : ¬ f.1 = e.1 := hne f (by simp)
    simp only [pyGet, if_neg hfne]
    have hfst : (sumUpdateStep tmp s f.2).1.map Prod.fst = tmp.map Prod.fst := by
      rw [sumUpdateStep_fst f.2 tmp s]
      exact foldl_dictUpdate_fst f.2 tmp (hkeys f (by simp))
    have hs2 := sumUpdateStep_snd f.2 tmp s hs
    have hkeys2 : ∀ en ∈ rpre2 ++ e :: rpost, ∀ kv ∈ en.2,
        kv.1 ∈ (sumUpdateStep tmp s f.2).1.map Prod.fst := by
      intro en hen kv hkv
      rw [hfst]
      exact hkeys en (List.mem_cons_of_mem f hen) kv hkv
    have hinner2 : ∀ en ∈ rpre2 ++ e :: rpost, (en.2.map Prod.fst).Nodup :=
      fun en hen => hinner en (List.mem_cons_of_mem f hen)
    have htmp2 : ((sumUpdateStep tmp s f.2).1.map Prod.fst).Nodup := by
      rw [hfst]; exact htmp
    have hne2 : ∀ en ∈ rpre2, en.1 ≠ e.1 := fun en hen =>
      hne en (List.mem_cons_of_mem f hen)
    rw [sumWalk_pyGet rpre2 e rpost (sumUpdateStep tmp s f.2).1
      (sumUpdateStep tmp s f.2).2 hs2 hkeys2 hinner2 htmp2 hne2]
    have hbt : backTmp (e :: rpre2.reverse) (sumUpdateStep tmp s f.2).1
        = backTmp (e :: (f :: rpre2).reverse) tmp := by
      rw [sumUpdateStep_fst f.2 tmp s]
      have h1 := backTmp_fold (e :: rpre2.reverse) f.1 f.2 tmp (hkeys f (by simp))
        (hinner f (by simp)) htmp
      rw [h1]
      simp
    rw [hbt]

theorem dedupScanA_step (p : Int) (c : Int × Int) (rest : List (Int × Int))
    (aft : Int × Int) :
    dedupScanA p (c :: rest) aft
      = if p = c.2 ∧ c.2 = (rest.headD aft).2 then dedupScanA c.2 rest aft
        else if c.1 = (rest.headD aft).1 then dedupScanA c.2 rest aft
        else c :: dedupScanA c.2 rest aft := rfl

theorem dedupScan_step (p : Int) (c : Int × Int) (rest : List (Int × Int)) :
    dedupScan p (c :: rest)
      = if p = c.2 ∧ c.2 = (rest.headD (sentinelDate, maxsize)).2 then
          dedupScan c.2 rest
        else if c.1 = (rest.headD (sentinelDate, maxsize)).1 then dedupScan c.2 rest
        else c :: dedupScan c.2 rest := rfl

theorem dedupScan_eq_A : ∀ (p : Int) (l : List (Int × Int)),
    dedupScan p l = dedupScanA p l (sentinelDate, maxsize)
  | _, [] => rfl
  | p, c :: rest => by
    rw [dedupScan_step, dedupScanA_step, dedupScan_eq_A c.2 rest]

theorem headD_append {α : Type} (X Y : List α) (a : α) :
    (X ++ Y).headD a = X.headD (Y.headD a) := by
  cases X <;> rfl

theorem lastTotal_cons (p : Int) (c : Int × Int) (l : List (Int × Int)) :
    lastTotal p (c :: l) = lastTotal c.2 l := rfl

theorem dedupScanA_append : ∀ (X : List (Int × Int)) (p : Int)
    (Y : List (Int × Int)) (aft : Int × Int),
    dedupScanA p (X ++ Y) aft
      = dedupScanA p X (Y.headD aft) ++ dedupScanA (lastTotal p X) Y aft
  | [], _, _, _ => rfl
  | c :: X2, p, Y, aft => by
    rw [List.cons_append, dedupScanA_step, dedupScanA_step, headD_append,
      dedupScanA_append X2 c.2 Y aft, lastTotal_cons]
    by_cases h1 : p = c.2 ∧ c.2 = (X2.headD (Y.headD aft)).2
    · rw [if_pos h1, if_pos h1]
    · rw [if_neg h1, if_neg h1]
      by_cases h2 : c.1 = (X2.headD (Y.headD aft)).1
      · rw [if_pos h2, if_pos h2]
      · rw [if_neg h2, if_neg h2, List.cons_append]

theorem dedupScanA_sublist : ∀ (p : Int) (l : List (Int × Int)) (aft : Int × Int),
    List.Sublist (dedupScanA p l aft) l
  | _, [], _ => List.Sublist.slnil
  | p, c :: rest, aft => by
    rw [dedupScanA_step]
    by_cases h1 : p = c.2 ∧ c.2 = (rest.headD aft).2
    · rw [if_pos h1]
      exact (dedupScanA_sublist c.2 rest aft).cons c
    · rw [if_neg h1]
      by_cases h2 : c.1 = (rest.headD aft).1
      · rw [if_pos h2]
        exact (dedupScanA_sublist c.2 rest aft).cons c
      · rw [if_neg h2]
        exact (dedupScanA_sublist c.2 rest aft).cons₂ c

theorem dedupScan_sublist (p : Int) (l : List (Int × Int)) :
    List.Sublist (dedupScan p l) l := by
  rw [dedupScan_eq_A]
  exact dedupScanA_sublist p l (sentinelDate, maxsize)

theorem dedupScanA_congr_aft : ∀ (l : List (Int × Int)) (p : Int)
    (aft1 aft2 : Int × Int), aft1.2 = aft2.2 →
    (∀ x ∈ l, x.1 ≠ aft1.1 ∧ x.1 ≠ aft2.1) →
    dedupScanA p l aft1 = dedupScanA p l aft2
  | [], _, _, _, _, _ => rfl
  | c :: rest, p, aft1, aft2, ht, hd => by
    have ih := dedupScanA_congr_aft rest c.2 aft1 aft2 ht
      (fun x hx => hd x (List.mem_cons_of_mem c hx))
    rw [dedupScanA_step, dedupScanA_step]
    cases rest with
    | nil =>
      have hd1 := hd c (by simp)
      simp only [List.headD_nil]
      rw [ht]
      by_cases h1 : p = c.2 ∧ c.2 = aft2.2
      · rw [if_pos h1, if_pos h1]
        exact ih
      · rw [if_neg h1, if_neg h1, if_neg hd1.1, if_neg hd1.2]
        rw [show dedupScanA c.2 [] aft1 = dedupScanA c.2 [] aft2 from rfl]
    | cons r rest2 =>
      simp only [List.headD_cons]
      rw [ih]

theorem lastTotal_dedupScanA : ∀ (l : List (Int × Int)) (p : Int) (aft : Int × Int),
    l.Pairwise (fun a b => a.1 < b.1) → (∀ x ∈ l, x.1 ≠ aft.1) →
    lastTotal p (dedupScanA p l aft) = lastTotal p l
  | [], _, _, _, _ => rfl
  | c :: rest, p, aft, hp, ha => by
    have hdd : ¬ c.1 = (rest.headD aft).1 := by
      cases rest with
      | nil => exact ha c (by simp)
      | cons r rest2 => exact ((List.pairwise_cons.1 hp).1 r (by simp)).ne
    have ih := lastTotal_dedupScanA rest c.2 aft (List.pairwise_cons.1 hp).2
      (fun x hx => ha x (List.mem_cons_of_mem c hx))
    rw [dedupScanA_step, lastTotal_cons]
    by_cases h1 : p = c.2 ∧ c.2 = (rest.headD aft).2
    · rw [if_pos h1, h1.1]
      exact ih
    · rw [if_neg h1, if_neg hdd, lastTotal_cons]
      exact ih

theorem headD_total_dedupScanA : ∀ (l : List (Int × Int)) (p : Int)
    (aft : Int × Int), l.Pairwise (fun a b => a.1 < b.1) →
    (∀ x ∈ l, x.1 ≠ aft.1) → p = (l.headD aft).2 →
    ((dedupScanA p l aft).headD aft).2 = (l.headD aft).2
  | [], _, _, _, _, _ => rfl
  | c :: rest, p, aft, hp, ha, hval => by
    simp only [List.headD_cons] at hval
    have hdd : ¬ c.1 = (rest.headD aft).1 := by
      cases rest with
      | nil => exact fun h => (ha c (by simp)) h
      | cons r rest2 => exact ((List.pairwise_cons.1 hp).1 r (by simp)).ne
    rw [dedupScanA_step]
    by_cases h1 : p = c.2 ∧ c.2 = (rest.headD aft).2
    · rw [if_pos h1]
      have ih := headD_total_dedupScanA rest c.2 aft (List.pairwise_cons.1 hp).2
        (fun x hx => ha x (List.mem_cons_of_mem c hx)) h1.2
      rw [List.headD_cons, ih, ← h1.2]
    · rw [if_neg h1, if_neg hdd]
      simp

theorem dedupScan_idem : ∀ (l : List (Int × Int)) (p : Int),
    l.Pairwise (fun a b => a.1 < b.1) → (∀ x ∈ l, x.1 < sentinelDate) →
    dedupScan p (dedupScan p l) = dedupScan p l := by
  intro l
  induction l with
  | nil => intro p _ _; rfl
  | cons c rest ih =>
    intro p hp hd
    have hpt := List.pairwise_cons.1 hp
    have hdrest : ∀ x ∈ rest, x.1 < sentinelDate := fun x hx =>
      hd x (List.mem_cons_of_mem c hx)
    have hdd : ¬ c.1 = (rest.headD (sentinelDate, maxsize)).1 := by
      cases rest with
      | nil => simpa using (hd c (by simp)).ne
      | cons r rest2 => exact (hpt.1 r (by simp)).ne
    rw [dedupScan_step]
    by_cases h1 : p = c.2 ∧ c.2 = (rest.headD (sentinelDate, maxsize)).2
    · rw [if_pos h1, h1.1]
      exact ih c.2 hpt.2 hdrest
    · rw [if_neg h1, if_neg hdd, dedupScan_step]
      have ha : ¬ c.1 = ((dedupScan c.2 rest).headD (sentinelDate, maxsize)).1 := by
        cases hR : dedupScan c.2 rest with
        | nil => simpa using (hd c (by simp)).ne
        | cons r R2 =>
          have hr : r ∈ rest := (dedupScan_sublist c.2 rest).subset (by rw [hR]; simp)
          exact (hpt.1 r hr).ne
      have hb : ¬ (p = c.2
          ∧ c.2 = ((dedupScan c.2 rest).headD (sentinelDate, maxsize)).2) := by
        rintro ⟨hpc, hcn⟩
        cases rest with
        | nil => exact h1 ⟨hpc, by simpa using hcn⟩
        | cons r rest2 =>
          have hrne : ¬ c.2 = r.2 := by
            intro hce
            exact h1 ⟨hpc, by simpa using hce⟩
          have hr_flat : ¬ (c.2 = r.2
              ∧ r.2 = (rest2.headD (sentinelDate, maxsize)).2) := fun hc => hrne hc.1
          have hr_date : ¬ r.1 = (rest2.headD (sentinelDate, maxsize)).1 := by
            cases rest2 with
            | nil => simpa using (hd r (by simp)).ne
            | cons r2 rest3 => exact ((List.pairwise_cons.1 hpt.2).1 r2 (by simp)).ne
          rw [dedupScan_step, if_neg hr_flat, if_neg hr_date] at hcn
          simp only [List.headD_cons] at hcn
          exact hrne hcn
      rw [if_neg hb, if_neg ha, ih c.2 hpt.2 hdrest]

theorem dedupScan_transparent (X : List (Int × Int)) (d t : Int)
    (Y : List (Int × Int)) (p : Int)
    (hlast : lastTotal p X = t)
    (hhead : ((Y.headD (sentinelDate, maxsize)).2) = t)
    (hp : (X ++ (d, t) :: Y).Pairwise (fun a b => a.1 < b.1))
    (hdates : ∀ x ∈ X ++ (d, t) :: Y, x.1 < sentinelDate) :
    dedupScan p (X ++ (d, t) :: Y) = dedupScan p (X ++ Y) := by
  have hcross := (List.pairwise_append.1 hp).2.2
  rw [dedupScan_eq_A, dedupScan_eq_A, dedupScanA_append, dedupScanA_append, hlast]
  simp only [List.headD_cons]
  rw [dedupScanA_step, if_pos ⟨rfl, hhead.symm⟩]
  have hcongr : dedupScanA p X (d, t)
      = dedupScanA p X (Y.headD (sentinelDate, maxsize)) := by
    refine dedupScanA_congr_aft X p (d, t) (Y.headD (sentinelDate, maxsize))
      (by rw [hhead]) ?_
    intro x hx
    have hxd : x.1 < d := hcross x hx (d, t) (by simp)
    refine ⟨hxd.ne, ?_⟩
    cases Y with
    | nil => exact (hdates x (List.mem_append_left _ hx)).ne
    | cons y Y2 =>
      have hxy : x.1 < y.1 := hcross x hx y (by simp)
      exact hxy.ne
  rw [hcongr]

theorem dictUpdate_nodup {κ β : Type} [DecidableEq κ] (l : List (κ × β)) (a : κ)
    (b : β) (h : (l.map Prod.fst).Nodup) :
    ((dictUpdate l a b).map Prod.fst).Nodup := by
  cases hg : pyGet l a with
  | some v => rw [map_fst_dictUpdate_of_some l a b v hg]; exact h
  | none =>
    rw [dictUpdate_of_none l a b hg]
    rw [List.map_append]
    rw [List.nodup_append]
    refine ⟨h, by simp, ?_⟩
    intro x hx
    simp only [List.map_cons, List.map_nil, List.mem_singleton]
    intro hxa
    subst hxa
    exact absurd hx ((pyGet_eq_none l x).1 hg)

theorem mem_dictUpdate {κ β : Type} [DecidableEq κ] :
    ∀ (l : List (κ × β)) (a : κ) (b : β) (x : κ × β),
      x ∈ dictUpdate l a b → x ∈ l ∨ x = (a, b)
  | [], a, b, x, hx => by
    simp only [dictUpdate, List.mem_singleton] at hx
    exact Or.inr hx
  | (k, v) :: rest, a, b, x, hx => by
    by_cases hk : k = a
    · subst hk
      simp only [dictUpdate, if_pos] at hx
      rcases List.mem_cons.1 hx with hh | ht
      · exact Or.inr hh
      · exact Or.inl (List.mem_cons_of_mem _ ht)
    · simp only [dictUpdate, if_neg hk] at hx
      rcases List.mem_cons.1 hx with hh | ht
      · exact Or.inl (hh ▸ List.mem_cons_self _ _)
      · rcases mem_dictUpdate rest a b x ht with h | h
        · exact Or.inl (List.mem_cons_of_mem _ h)
        · exact Or.inr h

theorem pyGet_of_mem_nodup {κ β : Type} [DecidableEq κ] :
    ∀ (l : List (κ × β)) (a : κ) (v : β), (l.map Prod.fst).Nodup →
      (a, v) ∈ l → pyGet l a = some v
  | [], _, _, _, hm => by simp at hm
  | (k, w) :: rest, a, v, hnd, hm => by
    simp only [List.map_cons, List.nodup_cons] at hnd
    rcases List.mem_cons.1 hm with hh | ht
    · rw [← hh]
      simp [pyGet]
    · have hka : ¬ k = a := by
        intro hc
        subst hc
        exact hnd.1 (List.mem_map_of_mem Prod.fst ht)
      simp only [pyGet, if_neg hka]
      exact pyGet_of_mem_nodup rest a v hnd.2 ht

/-! ## Claim theorems -/

/-- C1, counterexample.  For children A `{2024-01-01: 10, 2024-01-03: 15}` and
B `{2024-01-02: 7, 2024-01-03: 7}` with as-of date 2024-01-03 (ordinals
738886-738888), the level aggregation does **not** produce the claimed parent
totals 22/17/10: it produces 22 at 2024-01-03, 22 at 2024-01-02 and 17 at
2024-01-01, because the backward walk only subtracts a child's delta when it
reaches the child's own earlier point, so A still counts as 15 at 2024-01-02 and
B still counts as 7 at 2024-01-01. -/
theorem claim1_counterexample :
    get_summed_up_counts_per_date 738888
        (get_sub_counts_per_date
          [("A", [(738886, 10), (738888, 15)]), ("B", [(738887, 7), (738888, 7)])])
      = [(738886, 17), (738887, 22), (738888, 22)]
    ∧ get_summed_up_counts_per_date 738888
        (get_sub_counts_per_date
          [("A", [(738886, 10), (738888, 15)]), ("B", [(738887, 7), (738888, 7)])])
      ≠ [(738886, 10), (738887, 17), (738888, 22)] := by
  decide

/-- C1, amended.  For children A with series `{2024-01-01: 10, 2024-01-03: 15}` and
B with series `{2024-01-02: 7, 2024-01-03: 7}` and as-of date 2024-01-03, the level
aggregation (`get_summed_up_counts_per_date`, whose output passes through
`dedup_counts_per_date`) produces the parent per-date totals 22 at 2024-01-03,
22 at 2024-01-02, and 17 at 2024-01-01: between two of a child's reports, the
reconstruction carries the child's value backward from its next report (A counts
as 15 at 2024-01-02; B counts as 7 at 2024-01-01), not forward from its last. -/
theorem claim1_amended_level_aggregation :
    get_summed_up_counts_per_date 738888
        (get_sub_counts_per_date
          [("A", [(738886, 10), (738888, 15)]), ("B", [(738887, 7), (738888, 7)])])
      = [(738886, 17), (738887, 22), (738888, 22)] := by
  decide

/-- C2, counterexample.  Date 2024-01-01 (738886) is strictly earlier than child
B's first point 2024-01-02 (738887), yet the reconstructed parent total at that
date is 17 with B present and 10 with B removed: B contributes its first reported
total 7, not 0. -/
theorem claim2_counterexample :
    (738886 : Int) < 738887
    ∧ pyGet
        (get_summed_up_counts_per_date 738888
          (get_sub_counts_per_date
            [("A", [(738886, 10), (738888, 15)]), ("B", [(738887, 7), (738888, 7)])]))
        738886 = some 17
    ∧ pyGet
        (get_summed_up_counts_per_date 738888
          (get_sub_counts_per_date [("A", [(738886, 10), (738888, 15)])]))
        738886 = some 10
    ∧ (17 : Int) - 10 ≠ 0 := by
  decide

/-- C3, counterexample.  A child whose entire in-window series is `[10, 10, 8, 12]`
(session 2024-01-04 = 738889, 62-day window, as-of total 12, no point before the
window) gets recent total `12 - 10 = 2` — the as-of total minus the child's *first
watermark-event* total — not the claimed 12. -/
theorem claim3_counterexample :
    (recentScan 738889 62
        [(738886, [("x", 10)]), (738887, [("x", 10)]), (738888, [("x", 8)]),
          (738889, [("x", 12)])]).rtc
      = [("x", 2)]
    ∧ (2 : Int) ≠ 12 := by
  decide

/-- C5, counterexample.  The current breakdown ranks by total only, with ties kept
in the children's dict order (Python's stable sort), not re-ordered by key: with
children `b` then `a` both totalling 9 at the session date and K = 1, the code
keeps `a` (the last in insertion order) while a `(total, key)` sort would keep `b`. -/
theorem claim5_counterexample :
    downloads_per_sub_level 1
        ((pyGet (get_sub_counts_per_date [("b", [(738886, 9)]), ("a", [(738886, 9)])])
          738886).getD [])
      = [("a", 9)]
    ∧ specTopK 1
        ((pyGet (get_sub_counts_per_date [("b", [(738886, 9)]), ("a", [(738886, 9)])])
          738886).getD [])
      = [("b", 9)]
    ∧ ([("a", 9)] : List (String × Int)) ≠ [("b", 9)] := by
  decide

/-- C10, confirmed.  There is an input on which a child's recent delta is negative
and the child still participates in the recent ranking: child `y` reports 10 on
2024-01-01 (its first in-window watermark event) but only 8 at the as-of date
2024-01-02, so its recorded recent total is `8 - 10 = -2 < 0`; `y` is still
selected into the top-K ranking and its event appears in the output. -/
theorem claim10_negative_recent_delta :
    (recentScan 738887 62 [(738886, [("y", 10)]), (738887, [("y", 8)])]).rtc
      = [("y", -2)]
    ∧ (-2 : Int) < 0
    ∧ "y" ∈ recentSelection 50
        (recentScan 738887 62 [(738886, [("y", 10)]), (738887, [("y", 8)])]).rtc
    ∧ get_recent_counts 738887 50 62 [(738886, [("y", 10)]), (738887, [("y", 8)])]
      = [(738886, [("y", 10)])] := by
  decide

/-- C8, confirmed.  A leaf key absent from the snapshot is not processed at the
leaf level: `update_basename_counts` iterates only over the snapshot's keys, so the
absent key's persisted record is unchanged by the run (no point is added, no zero
observation is emitted, the stored value is identical). -/
theorem claim8_absent_leaf_frame (current_date : Int)
    (snapshot : List (List String × Int)) (store : Store) (key : List String)
    (h : key ∉ snapshot.map Prod.fst) :
    (update_basename_counts current_date snapshot store).1 key = store key :=
  update_basename_counts_loop_frame current_date snapshot (store, []) key h

/-- Witness for C8: a run whose snapshot contains only leaf key `.../b.conda`
leaves the previously stored record of leaf key `.../a.conda` untouched. -/
theorem claim8_witness :
    (update_basename_counts 738887 [(["bioconda", "pkg", "1.0", "noarch", "b.conda"], 4)]
        (fun key =>
          if key = ["bioconda", "pkg", "1.0", "noarch", "a.conda"] then
            some (as_list [(738886, 5)] "date" "total")
          else none)).1
      ["bioconda", "pkg", "1.0", "noarch", "a.conda"]
      = some (as_list [(738886, 5)] "date" "total") := by
  rw [claim8_absent_leaf_frame 738887 _ _ _ (by decide)]
  simp

/-- C9, confirmed.  Serialising a series to the persisted list form
(`as_list(..., "date", "total")` inside `save_json`) and reloading it
(`load_old_counts` applying `from_list_of_dicts` to `downloads_per_date`)
reproduces the identical ordered sequence of `(date, total)` points; a series has
unique dates (its dict keys), which the hypothesis records. -/
theorem claim9_round_trip (series : List (Int × Int))
    (h : (series.map Prod.fst).Nodup) :
    from_list_of_dicts (as_list series "date" "total") "date" "total" = series := by
  have heq : from_list_of_dicts (as_list series "date" "total") "date" "total"
      = series.foldl (fun a kv => dictUpdate a kv.1 kv.2) [] := by
    unfold from_list_of_dicts as_list
    rw [List.foldl_map]
    rfl
  rw [heq]
  simpa using foldl_dictUpdate_append series [] (by simp) h

/-- Witness for C9: the round trip reproduces the concrete two-point series
`{2024-01-01: 5, 2024-01-03: 9}` exactly. -/
theorem claim9_witness :
    (([(738886, 5), (738888, 9)] : List (Int × Int)).map Prod.fst).Nodup
    ∧ from_list_of_dicts (as_list [(738886, 5), (738888, 9)] "date" "total") "date"
        "total"
      = [(738886, 5), (738888, 9)] :=
  ⟨by decide, claim9_round_trip [(738886, 5), (738888, 9)] (by decide)⟩

/-- C4, confirmed.  On a series (a date-keyed dict, so dates are unique — no point
ever shares its date with the following one, making the same-date guard of lines
109-110 unreachable) whose dates are real calendar dates (before the virtual
sentinel "9999-12-31") and whose totals are download counts (nonnegative, below
`sys.maxsize`, so no real total collides with a sentinel total), the scan of
`dedup_counts_per_date` drops exactly the interior points whose total equals both
original neighbours' totals: it coincides with the spec's sentinel-free
formulation `specDedup`, and in particular always retains the first and the last
point of the sorted series. -/
theorem claim4_dedup_characterization (counts : List (Int × Int))
    (hnd : (counts.map Prod.fst).Nodup)
    (hdate : ∀ x ∈ counts, x.1 < sentinelDate)
    (hlow : ∀ x ∈ counts, 0 ≤ x.2)
    (hhigh : ∀ x ∈ counts, x.2 < maxsize) :
    (dedup_counts_per_date counts = specDedup (sort_by_date counts)
      ∧ (dedup_counts_per_date counts).head? = (sort_by_date counts).head?
      ∧ (dedup_counts_per_date counts).getLast? = (sort_by_date counts).getLast?)
    ∧ dedup_counts_per_date [(738886, 5), (738887, 5), (738888, 5), (738889, 9)]
      = [(738886, 5), (738888, 5), (738889, 9)] := by
  have hperm : List.Perm (sort_by_date counts) counts := List.perm_insertionSort pairLe counts
  have hndS : ((sort_by_date counts).map Prod.fst).Nodup :=
    ((hperm.map Prod.fst).nodup_iff).2 hnd
  have hsorted : (sort_by_date counts).Pairwise pairLe :=
    List.sorted_insertionSort pairLe counts
  have hlt := sorted_nodup_pairwise_lt (sort_by_date counts) hsorted hndS
  have hdateS : ∀ x ∈ sort_by_date counts, x.1 < sentinelDate := fun x hx =>
    hdate x (hperm.subset hx)
  have hlowS : ∀ x ∈ sort_by_date counts, 0 ≤ x.2 := fun x hx =>
    hlow x (hperm.subset hx)
  have hhighS : ∀ x ∈ sort_by_date counts, x.2 < maxsize := fun x hx =>
    hhigh x (hperm.subset hx)
  have hmain : dedup_counts_per_date counts = specDedup (sort_by_date counts) := by
    unfold dedup_counts_per_date
    cases hsort : sort_by_date counts with
    | nil => rfl
    | cons c rest =>
      rw [hsort] at hlt hdateS hlowS hhighS
      have hflat : ¬(-1 = c.2 ∧ c.2 = (rest.headD (sentinelDate, maxsize)).2) := by
        intro hc
        have := hlowS c (by simp)
        omega
      have hdd : ¬c.1 = (rest.headD (sentinelDate, maxsize)).1 := by
        cases rest with
        | nil => simpa using (hdateS c (by simp)).ne
        | cons nxt rest2 =>
          simpa using ((List.pairwise_cons.1 hlt).1 nxt (by simp)).ne
      have hstep : dedupScan (-1) (c :: rest)
          = if -1 = c.2 ∧ c.2 = (rest.headD (sentinelDate, maxsize)).2 then
              dedupScan c.2 rest
            else if c.1 = (rest.headD (sentinelDate, maxsize)).1 then dedupScan c.2 rest
            else c :: dedupScan c.2 rest := rfl
      rw [hstep, if_neg hflat, if_neg hdd,
        dedupScan_eq_specDedupTail c.2 rest (List.pairwise_cons.1 hlt).2
          (fun x hx => hdateS x (List.mem_cons_of_mem c hx))
          (fun x hx => hhighS x (List.mem_cons_of_mem c hx))]
      rfl
  refine ⟨⟨hmain, ?_, ?_⟩, by decide⟩
  · rw [hmain, specDedup_head]
  · rw [hmain, specDedup_getLast]

/-- Witness for C4: the characterization applied to the concrete history
`{2024-01-01: 5, 2024-01-02: 5, 2024-01-03: 5, 2024-01-04: 9}`, whose
consolidation keeps the endpoints and the flat point adjacent to the value
change. -/
theorem claim4_witness :
    dedup_counts_per_date [(738886, 5), (738887, 5), (738888, 5), (738889, 9)]
      = specDedup (sort_by_date [(738886, 5), (738887, 5), (738888, 5), (738889, 9)])
    ∧ dedup_counts_per_date [(738886, 5), (738887, 5), (738888, 5), (738889, 9)]
      = [(738886, 5), (738888, 5), (738889, 9)] :=
  ⟨(claim4_dedup_characterization
      [(738886, 5), (738887, 5), (738888, 5), (738889, 9)]
      (by decide) (by decide) (by decide) (by decide)).1.1,
    (claim4_dedup_characterization
      [(738886, 5), (738887, 5), (738888, 5), (738889, 9)]
      (by decide) (by decide) (by decide) (by decide)).2⟩

/-- C7, confirmed.  In the scan of `get_recent_counts`, walking the dates forward,
a watermark event is recorded for child `k` at date `d` (i.e. `k` appears in
`recent_counts_per_date[d]`, with its total at `d`) exactly when `k`'s total at `d`
strictly exceeds the running maximum of `k`'s totals over the earlier in-window
dates — `prev_totals[k]`, a `defaultdict(int)` seeded with 0, which for the
system's nonnegative totals is precisely the maximum total seen for `k` so far
within the window (0 when none was seen).  Re-reports of unchanged values and
downward corrections produce no event. -/
theorem claim7_watermark_events (session_date max_days : Int)
    (counts pre post : List (Int × List (String × Int))) (d : Int)
    (kts : List (String × Int)) (k : String) (t : Int)
    (hsplit : counts = pre ++ (d, kts) :: post)
    (hnd : (counts.map Prod.fst).Nodup)
    (hinner : ∀ e ∈ counts, (e.2.map Prod.fst).Nodup)
    (hwin : ¬(d < session_date - max_days))
    (hk : pyGet kts k = some t) :
    pyGet2 (recentScan session_date max_days counts).rcpd d k = some t
      ↔ winMax (session_date - max_days) k pre < t := by
  subst hsplit
  have hmap := hnd
  rw [List.map_append, List.map_cons, List.nodup_append] at hmap
  have hpreD : ∀ e ∈ pre, e.1 ≠ d := by
    intro e he hc
    have hm : e.1 ∈ pre.map Prod.fst := List.mem_map_of_mem Prod.fst he
    rw [hc] at hm
    exact hmap.2.2 hm (by simp)
  have hpostD : ∀ e ∈ post, e.1 ≠ d := by
    intro e he hc
    have h2 := hmap.2.1
    rw [List.nodup_cons] at h2
    have hm : e.1 ∈ post.map Prod.fst := List.mem_map_of_mem Prod.fst he
    rw [hc] at hm
    exact h2.1 hm
  unfold recentScan
  rw [List.foldl_append, List.foldl_cons, recentStep_app,
    if_neg (by dsimp only; exact hwin)]
  dsimp only
  rw [recentStep_rcpd_ne (session_date - max_days)
    ((pyGet (pre ++ (d, kts) :: post) session_date).getD []) k d post _ hpostD]
  have h0 : pyGet2 (pre.foldl
      (recentStep (session_date - max_days)
        ((pyGet (pre ++ (d, kts) :: post) session_date).getD []))
      ⟨[], [], []⟩).rcpd d k = none := by
    rw [recentStep_rcpd_ne (session_date - max_days)
      ((pyGet (pre ++ (d, kts) :: post) session_date).getD []) k d pre _ hpreD]
    rfl
  rw [recentInner_rcpd_event
    ((pyGet (pre ++ (d, kts) :: post) session_date).getD []) d k t kts _
    (hinner (d, kts) (by simp)) hk h0]
  have hprevEq : (pyGet (pre.foldl
      (recentStep (session_date - max_days)
        ((pyGet (pre ++ (d, kts) :: post) session_date).getD []))
      ⟨[], [], []⟩).prev k).getD 0 = winMax (session_date - max_days) k pre := by
    rw [recentStep_prev (session_date - max_days)
      ((pyGet (pre ++ (d, kts) :: post) session_date).getD []) k pre ⟨[], [], []⟩
      (fun e he => hinner e (List.mem_append_left _ he))]
    rfl
  rw [hprevEq]
  by_cases hlt : winMax (session_date - max_days) k pre < t
  · rw [if_pos hlt]
    simp [hlt]
  · rw [if_neg hlt]
    simp [hlt]

/-- Witness for C7: for the child with in-window series `[10, 10, 8, 12]`
(window start well before 2024-01-01), events occur at the first point valued 10
(at 2024-01-01, watermark 0 before it... recorded via the first theorem
application below with `pre = []`; included in `claim3_witness`'s input) and at
the point valued 12, while the repeated 10 produces none: here the theorem is
applied at 2024-01-04 (prior watermark 10 < 12, so the event is recorded with
total 12) and at 2024-01-02 (prior watermark 10, and 10 does not exceed it, so
nothing is recorded at that date). -/
theorem claim7_witness :
    pyGet2 (recentScan 738889 62
        [(738886, [("x", 10)]), (738887, [("x", 10)]), (738888, [("x", 8)]),
          (738889, [("x", 12)])]).rcpd 738889 "x" = some 12
    ∧ ¬ pyGet2 (recentScan 738889 62
        [(738886, [("x", 10)]), (738887, [("x", 10)]), (738888, [("x", 8)]),
          (738889, [("x", 12)])]).rcpd 738887 "x" = some 10 := by
  constructor
  · exact (claim7_watermark_events 738889 62
      [(738886, [("x", 10)]), (738887, [("x", 10)]), (738888, [("x", 8)]),
        (738889, [("x", 12)])]
      [(738886, [("x", 10)]), (738887, [("x", 10)]), (738888, [("x", 8)])]
      [] 738889 [("x", 12)] "x" 12 rfl (by decide) (by decide) (by decide)
      (by decide)).2 (by decide)
  · intro h
    have hlt := (claim7_watermark_events 738889 62
      [(738886, [("x", 10)]), (738887, [("x", 10)]), (738888, [("x", 8)]),
        (738889, [("x", 12)])]
      [(738886, [("x", 10)])]
      [(738888, [("x", 8)]), (738889, [("x", 12)])] 738887 [("x", 10)] "x" 10 rfl
      (by decide) (by decide) (by decide) (by decide)).1 h
    revert hlt
    decide

/-- C3, amended, confirmed for the amended statement.  For every child considered
by `get_recent_counts`, the recorded recent total equals the child's as-of-date
total minus the child's *first watermark-event* total within the window (the first
in-window total strictly exceeding the zero-initialised watermark, i.e. the first
positive in-window total); a child with no such event is not considered at all.
The window-start boundary value claimed by the spec is never consulted. -/
theorem claim3_amended_recent_delta (session_date max_days : Int)
    (counts : List (Int × List (String × Int))) (k : String)
    (hinner : ∀ e ∈ counts, (e.2.map Prod.fst).Nodup) :
    pyGet (recentScan session_date max_days counts).rtc k
      = (firstEventTotal (session_date - max_days) k counts).map
          (fun t => (pyGet ((pyGet counts session_date).getD []) k).getD 0 - t) :=
  recentStep_rtc_first (session_date - max_days)
    ((pyGet counts session_date).getD []) k counts ⟨[], [], []⟩ hinner rfl rfl

/-- Witness for C3 (amended): for the child with in-window series `[10, 10, 8, 12]`
and as-of total 12, the first watermark-event total is 10, so the recorded recent
delta is `12 - 10 = 2`. -/
theorem claim3_witness :
    pyGet (recentScan 738889 62
        [(738886, [("x", 10)]), (738887, [("x", 10)]), (738888, [("x", 8)]),
          (738889, [("x", 12)])]).rtc "x"
      = some 2 := by
  rw [claim3_amended_recent_delta 738889 62
    [(738886, [("x", 10)]), (738887, [("x", 10)]), (738888, [("x", 8)]),
      (738889, [("x", 12)])] "x" (by decide)]
  decide

/-- C5, amended, confirmed for the amended statement.  The current breakdown is
the last K entries of the session date's child totals under Python's *stable* sort
by total only (ties keep the children's dict insertion order; keys are never
compared): the kept entries are in ascending total order, every child left out has
a total at most that of every kept child, and for the concrete children totals
`{a: 5, b: 9, c: 1, d: 9}` with K = 2 the breakdown contains exactly `b` and `d`. -/
theorem claim5_amended_current_breakdown (max_sub_level_entries : Nat)
    (session_counts : List (String × Int)) :
    (downloads_per_sub_level max_sub_level_entries session_counts).Pairwise valLe
    ∧ (∀ q ∈ session_counts,
        q ∉ downloads_per_sub_level max_sub_level_entries session_counts →
        ∀ p ∈ downloads_per_sub_level max_sub_level_entries session_counts,
          q.2 ≤ p.2)
    ∧ (downloads_per_sub_level 2 [("a", 5), ("b", 9), ("c", 1), ("d", 9)]).map
        Prod.fst = ["b", "d"] := by
  have hsorted : (List.insertionSort valLe session_counts).Pairwise valLe :=
    List.sorted_insertionSort valLe session_counts
  unfold downloads_per_sub_level pyTakeLast
  by_cases hz : max_sub_level_entries = 0
  · rw [if_pos hz]
    refine ⟨hsorted, ?_, by decide⟩
    intro q hq hqn
    exact absurd ((List.perm_insertionSort valLe session_counts).mem_iff.2 hq) hqn
  · rw [if_neg hz]
    refine ⟨?_, ?_, by decide⟩
    · exact hsorted.sublist (List.drop_sublist _ _)
    · intro q hq hqn p hp
      have hqs : q ∈ List.insertionSort valLe session_counts :=
        (List.perm_insertionSort valLe session_counts).mem_iff.2 hq
      rw [← List.take_append_drop
        ((List.insertionSort valLe session_counts).length - max_sub_level_entries)
        (List.insertionSort valLe session_counts), List.mem_append] at hqs
      rcases hqs with hqt | hqd
      · exact pairwise_take_drop valLe _ _ hsorted q hqt p hp
      · exact absurd hqd hqn

/-- Witness for C5 (amended): at the concrete children totals
`{a: 5, b: 9, c: 1, d: 9}` with K = 2, the breakdown is exactly `b` and `d`, and
the left-out child `a` (total 5) does not exceed the kept child `b` (total 9). -/
theorem claim5_witness :
    (downloads_per_sub_level 2 [("a", 5), ("b", 9), ("c", 1), ("d", 9)]).map
        Prod.fst = ["b", "d"]
    ∧ (5 : Int) ≤ 9 :=
  ⟨(claim5_amended_current_breakdown 2
      [("a", 5), ("b", 9), ("c", 1), ("d", 9)]).2.2,
    (claim5_amended_current_breakdown 2 [("a", 5), ("b", 9), ("c", 1), ("d", 9)]).2.1
      ("a", 5) (by decide) (by decide) ("b", 9) (by decide)⟩

/-- C2, amended, confirmed for the amended statement.  The backward walk of
`get_summed_up_counts_per_date` (its `sumWalk` reconstruction, whose result the
function passes through `dedup_counts_per_date`) emits, at every date `d` of the
per-date input, the sum over the session dict's children of each child's total at
its *earliest entry at or after `d`* (`backValue`, defaulting to the child's session
total).  Hence at a date strictly earlier than child `c`'s first point, `c`
contributes its first reported total — the value carried backward from its next
report — not 0.  Hypotheses: the input is a dict (unique dates), each per-date
child dict has unique keys, and every child occurring anywhere has a session-date
entry (otherwise Python's `tmp[key]` read would raise `KeyError`). -/
theorem claim2_amended_backward_carry (session_date : Int)
    (ordered pre post : List (Int × List (String × Int))) (d : Int)
    (cs : List (String × Int))
    (hsplit : ordered = pre ++ (d, cs) :: post)
    (hnd : (ordered.map Prod.fst).Nodup)
    (hkeys : ∀ e ∈ ordered, ∀ kv ∈ e.2,
      kv.1 ∈ (((pyGet ordered session_date).getD []).map Prod.fst))
    (hinner : ∀ e ∈ ordered, (e.2.map Prod.fst).Nodup)
    (htmp : ((((pyGet ordered session_date).getD []) :
        List (String × Int)).map Prod.fst).Nodup) :
    get_summed_up_counts_per_date session_date ordered
        = dedup_counts_per_date
            (sumWalk ((pyGet ordered session_date).getD [])
              (sumValues ((pyGet ordered session_date).getD []))
              ordered.reverse)
    ∧ pyGet (sumWalk ((pyGet ordered session_date).getD [])
          (sumValues ((pyGet ordered session_date).getD [])) ordered.reverse) d
        = some (sumValues (backTmp ((d, cs) :: post)
            ((pyGet ordered session_date).getD []))) := by
  refine ⟨rfl, ?_⟩
  have hrev : ordered.reverse = post.reverse ++ (d, cs) :: pre.reverse := by
    rw [hsplit]
    simp
  have hmem : ∀ en, en ∈ post.reverse ++ (d, cs) :: pre.reverse → en ∈ ordered := by
    intro en hen
    rw [← hrev] at hen
    exact (List.mem_reverse).1 hen
  have hneD : ∀ en ∈ post.reverse, en.1 ≠ (d, cs).1 := by
    intro en hen hc
    rw [List.mem_reverse] at hen
    rw [hsplit, List.map_append, List.map_cons, List.nodup_append] at hnd
    have h2 := hnd.2.1
    rw [List.nodup_cons] at h2
    have hm : en.1 ∈ post.map Prod.fst := List.mem_map_of_mem Prod.fst hen
    rw [hc] at hm
    exact h2.1 hm
  rw [hrev, sumWalk_pyGet post.reverse (d, cs) pre.reverse
    ((pyGet ordered session_date).getD [])
    (sumValues ((pyGet ordered session_date).getD [])) rfl
    (fun en hen => hkeys en (hmem en hen))
    (fun en hen => hinner en (hmem en hen)) htmp hneD]
  rw [List.reverse_reverse]

/-- Witness for C2 (amended): the A/B example of C1.  At 2024-01-01 — strictly
before child B's first point 2024-01-02 — the walk emits
`A's value at its earliest point ≥ 2024-01-01 (10) + B's backward-carried first
total (7) = 17`. -/
theorem claim2_witness :
    pyGet (sumWalk
        ((pyGet [(738886, [("A", 10)]), (738887, [("B", 7)]),
            (738888, [("B", 7), ("A", 15)])] 738888).getD [])
        (sumValues ((pyGet [(738886, [("A", 10)]), (738887, [("B", 7)]),
            (738888, [("B", 7), ("A", 15)])] 738888).getD []))
        [(738886, [("A", 10)]), (738887, [("B", 7)]),
          (738888, [("B", 7), ("A", 15)])].reverse) 738886
      = some 17 := by
  have h := (claim2_amended_backward_carry 738888
    [(738886, [("A", 10)]), (738887, [("B", 7)]), (738888, [("B", 7), ("A", 15)])]
    [] [(738887, [("B", 7)]), (738888, [("B", 7), ("A", 15)])] 738886 [("A", 10)]
    rfl (by decide) (by decide) (by decide) (by decide)).2
  exact h.trans (by decide)

/-- C6, confirmed.  Merging an observation `(d, t)` into a series and
consolidating, then merging the same `(d, t)` into the result and consolidating
again, changes nothing: re-applying the same observation is a no-op.  Hypotheses:
the series is a dict (unique dates) and all dates are real calendar dates before
"9999-12-31" (so no date collides with the virtual upper sentinel). -/
theorem claim6_consolidate_idempotent (S : List (Int × Int)) (d t : Int)
    (hnd : (S.map Prod.fst).Nodup) (hdates : ∀ x ∈ S, x.1 < sentinelDate)
    (hd : d < sentinelDate) :
    consolidate_observation (consolidate_observation S d t) d t
      = consolidate_observation S d t := by
  show dedupScan (-1) (List.insertionSort pairLe
      (dictUpdate (dedupScan (-1) (List.insertionSort pairLe (dictUpdate S d t)))
        d t))
    = dedupScan (-1) (List.insertionSort pairLe (dictUpdate S d t))
  set L := List.insertionSort pairLe (dictUpdate S d t) with hL
  set R := dedupScan (-1) L with hR
  have hdatesu : ∀ x ∈ dictUpdate S d t, x.1 < sentinelDate := by
    intro x hx
    rcases mem_dictUpdate S d t x hx with h | h
    · exact hdates x h
    · rw [h]; exact hd
  have hpermL : List.Perm L (dictUpdate S d t) := by
    rw [hL]; exact List.perm_insertionSort pairLe _
  have hndL : (L.map Prod.fst).Nodup :=
    ((hpermL.map Prod.fst).nodup_iff).2 (dictUpdate_nodup S d t hnd)
  have hdatesL : ∀ x ∈ L, x.1 < sentinelDate := fun x hx =>
    hdatesu x (hpermL.subset hx)
  have hsortL : List.Sorted pairLe L := by
    rw [hL]; exact List.sorted_insertionSort pairLe _
  have hltL : L.Pairwise (fun a b => a.1 < b.1) :=
    sorted_nodup_pairwise_lt L hsortL hndL
  cases hgR : pyGet R d with
  | some x =>
    have hmemR : (d, x) ∈ R := by
      obtain ⟨l1, l2, heq, _⟩ := pyGet_eq_some_split R d x hgR
      rw [heq]; simp
    have hmemu : (d, x) ∈ dictUpdate S d t := by
      rw [hR] at hmemR
      exact hpermL.subset ((dedupScan_sublist (-1) L).subset hmemR)
    have hxt : x = t :=
      Option.some.inj
        ((pyGet_of_mem_nodup _ d x (dictUpdate_nodup S d t hnd) hmemu).symm.trans
          (pyGet_dictUpdate_self S d t))
    subst hxt
    rw [dictUpdate_of_some_self R d x hgR]
    have hsortR : List.Sorted pairLe R := by
      rw [hR]; exact List.Pairwise.sublist (dedupScan_sublist (-1) L) hsortL
    rw [List.Sorted.insertionSort_eq hsortR, hR]
    exact dedupScan_idem L (-1) hltL hdatesL
  | none =>
    rw [dictUpdate_of_none R d t hgR]
    have hmemL : (d, t) ∈ L := hpermL.mem_iff.2 (by
      obtain ⟨l1, l2, heq, _⟩ := pyGet_eq_some_split (dictUpdate S d t) d t
        (pyGet_dictUpdate_self S d t)
      rw [heq]; simp)
    obtain ⟨A, B, hLsplit⟩ := List.append_of_mem hmemL
    have hltAB : (A ++ (d, t) :: B).Pairwise (fun a b => a.1 < b.1) := by
      rw [← hLsplit]; exact hltL
    have hdatesAB : ∀ x ∈ A ++ (d, t) :: B, x.1 < sentinelDate := by
      rw [← hLsplit]; exact hdatesL
    have hsortAB : List.Sorted pairLe (A ++ (d, t) :: B) := by
      rw [← hLsplit]; exact hsortL
    have hpwlt := List.pairwise_append.1 hltAB
    have hpwle := List.pairwise_append.1 hsortAB
    have hAd : ∀ x ∈ A, x.1 < d := fun x hx => hpwlt.2.2 x hx (d, t) (by simp)
    have hdB : ∀ y ∈ B, d < y.1 := fun y hy =>
      (List.pairwise_cons.1 hpwlt.2.1).1 y hy
    have hdB_le : ∀ y ∈ B, pairLe (d, t) y := fun y hy =>
      (List.pairwise_cons.1 hpwle.2.1).1 y hy
    have hRsplit : R = dedupScanA (-1) A (d, t)
        ++ dedupScanA (lastTotal (-1) A) ((d, t) :: B) (sentinelDate, maxsize) := by
      rw [hR, hLsplit, dedupScan_eq_A, dedupScanA_append]
      simp only [List.headD_cons]
    have hdateEq : ¬ (d, t).1 = ((B.headD (sentinelDate, maxsize))).1 := by
      cases B with
      | nil => simpa using hd.ne
      | cons b B2 => simpa using (hdB b (by simp)).ne
    by_cases hflat : lastTotal (-1) A = (d, t).2
        ∧ (d, t).2 = ((B.headD (sentinelDate, maxsize))).2
    · have hRsplit2 : R = dedupScanA (-1) A (d, t)
          ++ dedupScanA t B (sentinelDate, maxsize) := by
        rw [hRsplit, dedupScanA_step, if_pos hflat]
      have hlastRa : lastTotal (-1) (dedupScanA (-1) A (d, t)) = t := by
        rw [lastTotal_dedupScanA A (-1) (d, t) hpwlt.1 (fun x hx => (hAd x hx).ne)]
        exact hflat.1
      have hheadRb : ((dedupScanA t B (sentinelDate, maxsize)).headD
          (sentinelDate, maxsize)).2 = t := by
        rw [headD_total_dedupScanA B t (sentinelDate, maxsize)
          (List.pairwise_cons.1 hpwlt.2.1).2
          (fun x hx => by
            simpa using (hdatesAB x (List.mem_append_right _
              (List.mem_cons_of_mem _ hx))).ne)
          hflat.2]
        exact hflat.2.symm
      have hRaA : ∀ x ∈ dedupScanA (-1) A (d, t), x ∈ A := fun x hx =>
        (dedupScanA_sublist (-1) A (d, t)).subset hx
      have hRbB : ∀ x ∈ dedupScanA t B (sentinelDate, maxsize), x ∈ B := fun x hx =>
        (dedupScanA_sublist t B _).subset hx
      have hsortT : List.Sorted pairLe (dedupScanA (-1) A (d, t)
          ++ (d, t) :: dedupScanA t B (sentinelDate, maxsize)) := by
        refine List.pairwise_append.2
          ⟨List.Pairwise.sublist (dedupScanA_sublist _ _ _) hpwle.1, ?_, ?_⟩
        · refine List.pairwise_cons.2
            ⟨fun y hy => hdB_le y (hRbB y hy),
              List.Pairwise.sublist (dedupScanA_sublist _ _ _)
                (List.pairwise_cons.1 hpwle.2.1).2⟩
        · intro x hx y hy
          rcases List.mem_cons.1 hy with hh | ht
          · exact hh ▸ Or.inl (hAd x (hRaA x hx))
          · exact Or.inl (lt_trans (hAd x (hRaA x hx)) (hdB y (hRbB y ht)))
      have hpermT : List.Perm (R ++ [(d, t)])
          (dedupScanA (-1) A (d, t)
            ++ (d, t) :: dedupScanA t B (sentinelDate, maxsize)) := by
        rw [hRsplit2, List.append_assoc]
        exact List.Perm.append_left _ (List.perm_append_singleton _ _)
      have hsortEq : List.insertionSort pairLe (R ++ [(d, t)])
          = dedupScanA (-1) A (d, t)
            ++ (d, t) :: dedupScanA t B (sentinelDate, maxsize) :=
        List.eq_of_perm_of_sorted
          ((List.perm_insertionSort pairLe _).trans hpermT)
          (List.sorted_insertionSort pairLe _) hsortT
      rw [hsortEq]
      have hpwltT : (dedupScanA (-1) A (d, t)
          ++ (d, t) :: dedupScanA t B (sentinelDate, maxsize)).Pairwise
            (fun a b => a.1 < b.1) := by
        refine List.pairwise_append.2
          ⟨List.Pairwise.sublist (dedupScanA_sublist _ _ _) hpwlt.1, ?_, ?_⟩
        · refine List.pairwise_cons.2
            ⟨fun y hy => hdB y (hRbB y hy),
              List.Pairwise.sublist (dedupScanA_sublist _ _ _)
                (List.pairwise_cons.1 hpwlt.2.1).2⟩
        · intro x hx y hy
          rcases List.mem_cons.1 hy with hh | ht
          · exact hh ▸ hAd x (hRaA x hx)
          · exact lt_trans (hAd x (hRaA x hx)) (hdB y (hRbB y ht))
      have hdatesT : ∀ x ∈ dedupScanA (-1) A (d, t)
          ++ (d, t) :: dedupScanA t B (sentinelDate, maxsize),
          x.1 < sentinelDate := by
        intro x hx
        rcases List.mem_append.1 hx with h | h
        · exact hdatesAB x (List.mem_append_left _ (hRaA x h))
        · rcases List.mem_cons.1 h with hh | ht
          · rw [hh]; exact hd
          · exact hdatesAB x (List.mem_append_right _
              (List.mem_cons_of_mem _ (hRbB x ht)))
      rw [dedupScan_transparent _ d t _ (-1) hlastRa hheadRb hpwltT hdatesT,
        ← hRsplit2, hR]
      exact dedupScan_idem L (-1) hltL hdatesL
    · exfalso
      have hkept : (d, t) ∈ R := by
        rw [hRsplit, dedupScanA_step, if_neg hflat, if_neg hdateEq]
        exact List.mem_append_right _ (List.mem_cons_self _ _)
      exact (pyGet_eq_none R d).1 hgR
        (by simpa using List.mem_map_of_mem Prod.fst hkept)

/-- Witness for C6: merging the flat middle observation `(2024-01-02, 5)` into
`{2024-01-01: 5, 2024-01-03: 5}` (where consolidation drops it again) twice
yields the same series as merging it once. -/
theorem claim6_witness :
    consolidate_observation
        (consolidate_observation [(738886, 5), (738888, 5)] 738887 5) 738887 5
      = consolidate_observation [(738886, 5), (738888, 5)] 738887 5 :=
  claim6_consolidate_idempotent [(738886, 5), (738888, 5)] 738887 5 (by decide)
    (by decide) (by decide)

end PackageDownloads
